import Mathlib

/-!
Shallow embedding of the sudojo backend (Go) puzzle engine and session hub.

Source files embedded:
* `backend/domain/sudoku.go` — board representation, move validation,
  generation, carving, solving/counting;
* `backend/domain/lobby.go` — lobby creation (puzzle / initial snapshot /
  solution);
* the server hub (`server.go`) — move/clear message handlers.

A Go `Sudoku` holds a `[9][9]int` array.  We model a board as a total
function `Nat → Nat → Int`; the Go code bound-checks every access before
indexing, so cells outside the 9×9 range are never read or written by the
embedded operations (all boards built by the pipeline are `0` there).
Mutation is modelled by state passing: a mutating method returns the new
board, paired with the `error` result (`Except String Unit`, carrying the
exact error strings of the Go source).  Randomness (the shuffled candidate
orders of `generateRandomOrder` and the shuffled cell list of
`shuffleCells`) is modelled by explicit parameters, universally quantified
in the theorems: `perms : Nat → List Int` is the stream of shuffled
candidate orders consumed by `fillBoard`, and `cellOrder` the shuffled
coordinate list used by the carver.
-/

namespace Sudojo

/-- A board: cell values indexed by (row, col).  Go: `Board [9][9]int`. -/
abbrev Board := Nat → Nat → Int

/-- The all-zero board (Go zero value of `[9][9]int`). -/
def emptyBoard : Board := fun _ _ => 0

/-- Writing one cell; models `s.Board[row][col] = value`. -/
def setCell (b : Board) (row col : Nat) (value : Int) : Board :=
  fun i j => if i = row ∧ j = col then value else b i j

/-- Go: `isValidInRow` — `value` occurs nowhere in row `row`. -/
def isValidInRow (b : Board) (row : Nat) (value : Int) : Bool :=
  decide (∀ col : Fin 9, b row col ≠ value)

/-- Go: `isValidInColumn` — `value` occurs nowhere in column `col`. -/
def isValidInColumn (b : Board) (col : Nat) (value : Int) : Bool :=
  decide (∀ row : Fin 9, b row col ≠ value)

/-- Go: `isValidInBox` — `value` occurs nowhere in the 3×3 box containing
(row, col); `boxRow = (row/3)*3`, `boxCol = (col/3)*3`. -/
def isValidInBox (b : Board) (row col : Nat) (value : Int) : Bool :=
  decide (∀ r : Fin 3, ∀ c : Fin 3,
    b (row / 3 * 3 + r) (col / 3 * 3 + c) ≠ value)

/-- The conjunction used inline by `fillBoard`, `solve` and `solveSingle`:
`isValidInRow && isValidInColumn && isValidInBox`. -/
def canPlace (b : Board) (row col : Nat) (value : Int) : Bool :=
  isValidInRow b row value && isValidInColumn b col value &&
    isValidInBox b row col value

/-- Go: `ValidateMove` — the error cascade, with the literal error strings
of the source.  Pure (the Go method only reads the board). -/
def validateMove (b : Board) (row col value : Int) : Except String Unit :=
  if row < 0 ∨ 9 ≤ row ∨ col < 0 ∨ 9 ≤ col then
    .error "position out of bounds"
  else if value < 1 ∨ 9 < value then
    .error "value must be between 1 and 9"
  else if b row.toNat col.toNat ≠ 0 then
    .error "cell is already filled"
  else if ¬ isValidInRow b row.toNat value then
    .error "value already exists in this row"
  else if ¬ isValidInColumn b col.toNat value then
    .error "value already exists in this column"
  else if ¬ isValidInBox b row.toNat col.toNat value then
    .error "value already exists in this 3x3 box"
  else
    .ok ()

/-- Go: `MakeMove` — validate, then write on success; the board component
is the (unchanged on error) state after the call. -/
def makeMove (b : Board) (row col value : Int) : Except String Unit × Board :=
  match validateMove b row col value with
  | .error e => (.error e, b)
  | .ok _ => (.ok (), setCell b row.toNat col.toNat value)

/-- Go: `ClearCell` — bound-check, then unconditionally write 0. -/
def clearCell (b : Board) (row col : Int) : Except String Unit × Board :=
  if row < 0 ∨ 9 ≤ row ∨ col < 0 ∨ 9 ≤ col then
    (.error "position out of bounds", b)
  else
    (.ok (), setCell b row.toNat col.toNat 0)

/-- Go: `ClearCellWithInitialCheck` — like `ClearCell` but refuses to clear
a cell that is nonzero in `initialBoard`. -/
def clearCellWithInitialCheck (b : Board) (row col : Int)
    (initialBoard : Board) : Except String Unit × Board :=
  if row < 0 ∨ 9 ≤ row ∨ col < 0 ∨ 9 ≤ col then
    (.error "position out of bounds", b)
  else if initialBoard row.toNat col.toNat ≠ 0 then
    (.error "cannot clear initial puzzle cells", b)
  else
    (.ok (), setCell b row.toNat col.toNat 0)

/-- Go: `GetValue`. -/
def getValue (b : Board) (row col : Int) : Except String Int :=
  if row < 0 ∨ 9 ≤ row ∨ col < 0 ∨ 9 ≤ col then
    .error "position out of bounds"
  else
    .ok (b row.toNat col.toNat)

/-- Go: `isValidRow` — the seen-map loop returns false exactly when two
distinct columns of the row hold the same nonzero value. -/
def isValidRow (b : Board) (row : Nat) : Bool :=
  decide (∀ c1 c2 : Fin 9, c1 < c2 → b row c1 ≠ 0 → b row c1 ≠ b row c2)

/-- Go: `isValidColumn`. -/
def isValidColumn (b : Board) (col : Nat) : Bool :=
  decide (∀ r1 r2 : Fin 9, r1 < r2 → b r1 col ≠ 0 → b r1 col ≠ b r2 col)

/-- Go: `isValidBox` for the box with top-left corner (boxRow, boxCol):
no two distinct positions of the box hold the same nonzero value. -/
def isValidBox (b : Board) (boxRow boxCol : Nat) : Bool :=
  decide (∀ p q : Fin 3 × Fin 3, p ≠ q →
    b (boxRow + p.1) (boxCol + p.2) ≠ 0 →
    b (boxRow + p.1) (boxCol + p.2) ≠ b (boxRow + q.1) (boxCol + q.2))

/-- Go: `IsValid` — all 9 rows, 9 columns and 9 boxes duplicate-free. -/
def isValid (b : Board) : Bool :=
  (decide (∀ row : Fin 9, isValidRow b row = true)) &&
  (decide (∀ col : Fin 9, isValidColumn b col = true)) &&
  (decide (∀ br : Fin 3, ∀ bc : Fin 3,
    isValidBox b (3 * br) (3 * bc) = true))

/-- Go: `IsComplete` — every cell nonzero, and `IsValid`. -/
def isComplete (b : Board) : Bool :=
  (decide (∀ r c : Fin 9, b r c ≠ 0)) && isValid b

/-- Go: `Copy` — a fresh zero board whose 81 cells are copied one by one
from the receiver (value semantics: the result shares no state with the
argument). -/
def copyBoard (b : Board) : Board :=
  fun i j => if i < 9 ∧ j < 9 then b i j else 0

/-- Go: `calculateCellsToRemove`.  The source computes
`int(float64(maxCells-minCells) * (float64(difficulty)/10.0))` in
`float64`; for every clamped difficulty `d ∈ [1,10]` the real value
`40 * d / 10 = 4 * d` is an integer that is exactly representable, and the
two float64 roundings stay within a half-ulp of it, so the float
computation returns exactly `4 * d` and truncation (`int(...)`) is exact.
We therefore model the arithmetic exactly over `ℚ` with `Int.floor` for
the truncation. -/
def calculateCellsToRemove (difficulty : Int) : Int :=
  let minCells : Int := 20
  let maxCells : Int := 60
  let d : Int := if difficulty < 1 then 1
                 else if difficulty > 10 then 10 else difficulty
  minCells + ⌊((maxCells - minCells : ℚ) * ((d : ℚ) / 10))⌋

/-- The candidate values tried by the solvers: `for num := 1; num <= 9`. -/
abbrev oneToNine : List Int := [1, 2, 3, 4, 5, 6, 7, 8, 9]

/-- Go: `findEmptyCells` — the zero cells, in row-major order. -/
def findEmptyCells (b : Board) : List (Nat × Nat) :=
  (List.range 9).flatMap fun row =>
    (List.range 9).filterMap fun col =>
      if b row col = 0 then some (row, col) else none

/-- Go: `solve` (counting mode).  The solutions counter is threaded
through the calls; `solve` returns as soon as the counter exceeds 1.  The
`for num := 1; num <= 9` loop is the fold: on a consistent candidate the
counter is threaded through the recursive call on the updated board (the
cell is reset right after, so the next candidate sees the unmodified
board), otherwise it is passed on unchanged. -/
def solveCount (b : Board) (cells : List (Nat × Nat)) (count : Nat) : Nat :=
  if 1 < count then count
  else
    match cells with
    | [] => count + 1
    | (r, c) :: rest =>
      oneToNine.foldl
        (fun cnt num =>
          if canPlace b r c num then solveCount (setCell b r c num) rest cnt
          else cnt) count

mutual

/-- Specification-side reference count: the number of ways to fill
`cells` (in order) with digits 1–9 such that every placement is
constraint-consistent with the board built so far — i.e. the exact
solution count that `solve` explores, without the early exit at 2.  Used
to state what the counting solver computes. -/
def countN (b : Board) (cells : List (Nat × Nat)) : Nat :=
  match cells with
  | [] => 1
  | (r, c) :: rest => countLoopN b r c rest oneToNine
termination_by (cells.length, 11)

/-- Sum over the candidate digits of `countN` after each consistent
placement. -/
def countLoopN (b : Board) (r c : Nat) (rest : List (Nat × Nat))
    (nums : List Int) : Nat :=
  match nums with
  | [] => 0
  | num :: ns =>
    (if canPlace b r c num then countN (setCell b r c num) rest else 0)
      + countLoopN b r c rest ns
termination_by (rest.length + 1, nums.length)

end

/-- Go: `hasUniqueSolution` — trivially true with no empty cell, else the
counting solver (run on a copy; copying is identity here) must report
exactly one solution. -/
def hasUniqueSolution (b : Board) : Bool :=
  let emptyCells := findEmptyCells b
  if emptyCells.isEmpty then true
  else decide (solveCount b emptyCells 0 = 1)

mutual

/-- Go: `fillBoard`, over the row-major linear index `idx`
(`row = idx / 9`, `col = idx % 9`; the Go function `getNextCell` is exactly
`idx + 1`, and the `row == BoardSize` base case is `81 ≤ idx`).  Each
invocation draws a fresh shuffled candidate order from the stream `perms`
at position `k` (`numbers := generateRandomOrder()`); `k` is threaded
through the search, failure included, so every execution of the Go code
corresponds to some `perms`. -/
def fillFrom (perms : Nat → List Int) (idx k : Nat) (b : Board) :
    Option Board × Nat :=
  if 81 ≤ idx then (some b, k)
  else fillTry perms idx (perms k) (k + 1) b
termination_by (82 - idx, 0)

/-- The `for _, num := range numbers` loop of `fillBoard`: on failure of
the recursive call the cell is reset (the unmodified `b` is reused) and
the next candidate is tried. -/
def fillTry (perms : Nat → List Int) (idx : Nat) (nums : List Int)
    (k : Nat) (b : Board) : Option Board × Nat :=
  match nums with
  | [] => (none, k)
  | num :: ns =>
    if canPlace b (idx / 9) (idx % 9) num then
      match fillFrom perms (idx + 1) k (setCell b (idx / 9) (idx % 9) num) with
      | (some b2, k2) => (some b2, k2)
      | (none, k2) => fillTry perms idx ns k2 b
    else fillTry perms idx ns k b
termination_by (81 - idx, nums.length)

end

/-- Go: `generateCompletedBoard` — run the backtracking filler from the
zero board; on failure (never reached, as proven below) the Go board has
been reset to all zeros. -/
def generateCompletedBoard (perms : Nat → List Int) : Board :=
  match fillFrom perms 0 0 emptyBoard with
  | (some b, _) => b
  | (none, _) => emptyBoard

/-- Go: the removal loop of `removeCellsKeepingUniqueSolution` over the
shuffled coordinate list: clear the candidate, keep the change only when
the board still has a unique solution, otherwise write the backup value
back. -/
def removeLoop (target : Int) : List (Nat × Nat) → Nat → Board → Board
  | [], _, b => b
  | (row, col) :: rest, removed, b =>
    if target ≤ (removed : Int) then b
    else
      let backup := b row col
      let cleared := setCell b row col 0
      if hasUniqueSolution cleared then
        removeLoop target rest (removed + 1) cleared
      else
        removeLoop target rest removed (setCell cleared row col backup)

/-- The row-major list of all 81 coordinates built by
`removeCellsKeepingUniqueSolution` before shuffling. -/
def allCells : List (Nat × Nat) :=
  (List.range 9).flatMap fun row => (List.range 9).map fun col => (row, col)

/-- Go: `removeCellsKeepingUniqueSolution`, with the shuffled coordinate
list passed explicitly. -/
def removeCellsKeepingUniqueSolution (b : Board) (difficulty : Int)
    (cellOrder : List (Nat × Nat)) : Board :=
  removeLoop (calculateCellsToRemove difficulty) cellOrder 0 (copyBoard b)

/-- Go: `GeneratePuzzle` — fill a complete board, then carve. -/
def generatePuzzle (difficulty : Int) (perms : Nat → List Int)
    (cellOrder : List (Nat × Nat)) : Board :=
  removeCellsKeepingUniqueSolution (generateCompletedBoard perms)
    difficulty cellOrder

mutual

/-- Go: `solveSingle` — stop at the first full assignment, returning the
solved board (`none` models returning `false` with the board reset to its
argument). -/
def solveSingle (b : Board) (cells : List (Nat × Nat)) : Option Board :=
  match cells with
  | [] => some b
  | (r, c) :: rest => solveSingleLoop b r c rest oneToNine
termination_by (cells.length, 11)

/-- The inner `for num` loop of `solveSingle`. -/
def solveSingleLoop (b : Board) (r c : Nat) (rest : List (Nat × Nat))
    (nums : List Int) : Option Board :=
  match nums with
  | [] => none
  | num :: ns =>
    if canPlace b r c num then
      match solveSingle (setCell b r c num) rest with
      | some b2 => some b2
      | none => solveSingleLoop b r c rest ns
    else solveSingleLoop b r c rest ns
termination_by (rest.length + 1, nums.length)

end

/-- Go: `SolvePuzzle` — immediate success on a board with no empty cell,
else single-solution search over the empty cells. -/
def solvePuzzle (b : Board) : Option Board :=
  let emptyCells := findEmptyCells b
  if emptyCells.isEmpty then some b
  else solveSingle b emptyCells

/-- Go: the `Lobby` struct of `lobby.go`. -/
structure Lobby where
  id : String
  puzzle : Board
  initialPuzzle : Board
  solution : Board

/-- Go: `NewLobby` — generate a difficulty-5 puzzle, snapshot it, solve a
copy; creation fails (`errors.New("failed to solve the puzzle")`) when the
single-solution solver finds no assignment.  The random token `id`
(crypto/rand, out of scope) is passed in. -/
def newLobby (id : String) (perms : Nat → List Int)
    (cellOrder : List (Nat × Nat)) : Option Lobby :=
  let puzzle := generatePuzzle 5 perms cellOrder
  let initialPuzzle := copyBoard puzzle
  match solvePuzzle (copyBoard puzzle) with
  | some solution => some ⟨id, puzzle, initialPuzzle, solution⟩
  | none => none

/-! ### Session hub (server message handlers) -/

/-- An outbound websocket message, as serialized by the hub.
`response` covers `SudokuResponseMessage` (both `success` and `error`
types); `state` covers `SudokuStateMessage` with the two boards already
converted to `[][]int`. -/
inductive OutMsg where
  | response (typ : String) (row col value : Int) (success : Bool)
      (err : Option String)
  | state (board initialBoard : List (List Int))
deriving DecidableEq

/-- The `[][]int` conversion the handlers perform before marshaling a
state message. -/
def boardToLists (b : Board) : List (List Int) :=
  (List.range 9).map fun i => (List.range 9).map fun j => b i j

/-- Go: `handleSudokuMove` — apply `MakeMove` to the puzzle of the lobby; on
error send one error response (echoing row/col/value) to the sender only;
on success send a success response to every client, then a state message
(current puzzle + initial puzzle) to every client.  Clients are modelled
by identifiers; `members` is the snapshot of the client set of the lobby taken
by the handler.  Returns the new puzzle and the outbound
(recipient, message) list in send order. -/
def handleSudokuMove (members : List Nat) (sender : Nat)
    (puzzle initialPuzzle : Board) (row col value : Int) :
    Board × List (Nat × OutMsg) :=
  match makeMove puzzle row col value with
  | (.error e, b) =>
    (b, [(sender, .response "error" row col value false (some e))])
  | (.ok _, b) =>
    let successMsg := OutMsg.response "success" row col value true none
    let stateMsg := OutMsg.state (boardToLists b) (boardToLists initialPuzzle)
    (b, members.map (fun m => (m, successMsg)) ++
        members.map (fun m => (m, stateMsg)))

/-- Go: `handleSudokuClear` — same shape as `handleSudokuMove`, using
`ClearCellWithInitialCheck` with the `InitialPuzzle` of the lobby as the guard;
the echoed value is 0 for clear operations. -/
def handleSudokuClear (members : List Nat) (sender : Nat)
    (puzzle initialPuzzle : Board) (row col : Int) :
    Board × List (Nat × OutMsg) :=
  match clearCellWithInitialCheck puzzle row col initialPuzzle with
  | (.error e, b) =>
    (b, [(sender, .response "error" row col 0 false (some e))])
  | (.ok _, b) =>
    let successMsg := OutMsg.response "success" row col 0 true none
    let stateMsg := OutMsg.state (boardToLists b) (boardToLists initialPuzzle)
    (b, members.map (fun m => (m, successMsg)) ++
        members.map (fun m => (m, stateMsg)))

/-! ### Specification-side predicates -/

/-- All 81 cells hold values in [0, 9]. -/
def CellsInRange (b : Board) : Prop :=
  ∀ r c : Fin 9, 0 ≤ b (r : Nat) (c : Nat) ∧ b (r : Nat) (c : Nat) ≤ 9

instance (b : Board) : Decidable (CellsInRange b) := by
  unfold CellsInRange; infer_instance

/-- Agreement on the 81 cells of the grid (boards are functions, so cells
outside the grid — never touched by the engine — are quotiented away). -/
def EqOn (b b2 : Board) : Prop :=
  ∀ r c : Fin 9, b (r : Nat) (c : Nat) = b2 (r : Nat) (c : Nat)

instance (b b2 : Board) : Decidable (EqOn b b2) := by
  unfold EqOn; infer_instance

/-- `b2` is a completion of `b`: every cell holds a digit 1–9, every
nonzero (given) cell of `b` is kept, and the completed board satisfies
the Sudoku row/column/box constraints (`IsValid`). -/
def Completion (b b2 : Board) : Prop :=
  (∀ r c : Fin 9, 1 ≤ b2 (r : Nat) (c : Nat) ∧ b2 (r : Nat) (c : Nat) ≤ 9) ∧
  (∀ r c : Fin 9, b (r : Nat) (c : Nat) ≠ 0 →
    b2 (r : Nat) (c : Nat) = b (r : Nat) (c : Nat)) ∧
  isValid b2 = true

instance (b b2 : Board) : Decidable (Completion b b2) := by
  unfold Completion; infer_instance

/-- `b` has exactly one completion, up to the 81 grid cells. -/
def UniqueCompletion (b : Board) : Prop :=
  ∃ b2, Completion b b2 ∧ ∀ b3, Completion b b3 → EqOn b3 b2

/-! ### Basic lemmas about the board primitives -/

lemma isValidInRow_iff (b : Board) (row : Nat) (value : Int) :
    isValidInRow b row value = true ↔ ∀ col : Fin 9, b row col ≠ value := by
  simp [isValidInRow]

lemma isValidInColumn_iff (b : Board) (col : Nat) (value : Int) :
    isValidInColumn b col value = true ↔ ∀ row : Fin 9, b row col ≠ value := by
  simp [isValidInColumn]

lemma isValidInBox_iff (b : Board) (row col : Nat) (value : Int) :
    isValidInBox b row col value = true ↔
      ∀ r : Fin 3, ∀ c : Fin 3,
        b (row / 3 * 3 + r) (col / 3 * 3 + c) ≠ value := by
  simp [isValidInBox]

lemma setCell_same (b : Board) (row col : Nat) (v : Int) :
    setCell b row col v row col = v := by
  simp [setCell]

lemma setCell_other (b : Board) (row col : Nat) (v : Int) {i j : Nat}
    (h : ¬(i = row ∧ j = col)) : setCell b row col v i j = b i j := by
  simp [setCell, h]

lemma setCell_setCell_self (b : Board) (row col : Nat) (v : Int) :
    setCell (setCell b row col v) row col (b row col) = b := by
  funext i j
  by_cases h : i = row ∧ j = col
  · obtain ⟨rfl, rfl⟩ := h
    simp [setCell]
  · simp [setCell, h]

/-! ### C4 — cell-removal count -/

/-- C4: for every integer difficulty `d`, `calculateCellsToRemove d`
equals `20 + round((60 - 20) * dc / 10)` where `dc` clamps `d` to
`[1, 10]`; in particular it equals `20 + 4 * dc`, so an in-range
difficulty `d` yields `20 + 4 * d`. -/
theorem calculateCellsToRemove_spec (d : Int) :
    calculateCellsToRemove d
        = 20 + round ((60 - 20 : ℚ) * ((max 1 (min 10 d) : ℤ) : ℚ) / 10) ∧
      calculateCellsToRemove d = 20 + 4 * max 1 (min 10 d) := by
  have hd : (if d < 1 then (1 : ℤ) else if d > 10 then 10 else d)
      = max 1 (min 10 d) := by
    split_ifs <;> omega
  have key : ∀ x : ℚ, x = ((max 1 (min 10 d) : ℤ) : ℚ) →
      (40 : ℚ) * (x / 10) = ((4 * max 1 (min 10 d) : ℤ) : ℚ) ∧
      (40 : ℚ) * x / 10 = ((4 * max 1 (min 10 d) : ℤ) : ℚ) := by
    rintro x rfl
    constructor <;> (push_cast; ring)
  unfold calculateCellsToRemove
  dsimp only
  rw [hd]
  norm_num
  have hx : ((1 : ℚ) ⊔ 10 ⊓ (d : ℚ)) = ((1 ⊔ 10 ⊓ d : ℤ) : ℚ) := by
    push_cast
    rfl
  rw [hx, (key _ rfl).1, (key _ rfl).2, Int.floor_intCast, round_intCast]
  exact ⟨rfl, rfl⟩

/-! ### C2 — move validation -/

/-- C2: `ValidateMove` fails with the out-of-bounds error when row/col is
outside [0,9); otherwise with the out-of-range error when value is outside
[1,9]; otherwise with the cell-occupied error when the target cell is
nonzero; otherwise with the row/column/box-conflict error when the value
already occurs in the row, column, or 3×3 box; in all remaining cases it
succeeds.  In particular it accepts iff the cell is in bounds and empty,
the value in range, and the value absent from the row, the column, and the
box.  (`validateMove` is a pure function of the board in this embedding,
matching the Go method, which only reads `s.Board`.) -/
theorem validateMove_spec (b : Board) (row col value : Int) :
    (validateMove b row col value =
      if row < 0 ∨ 9 ≤ row ∨ col < 0 ∨ 9 ≤ col then
        .error "position out of bounds"
      else if value < 1 ∨ 9 < value then
        .error "value must be between 1 and 9"
      else if b row.toNat col.toNat ≠ 0 then
        .error "cell is already filled"
      else if ∃ j : Fin 9, b row.toNat (j : Nat) = value then
        .error "value already exists in this row"
      else if ∃ i : Fin 9, b (i : Nat) col.toNat = value then
        .error "value already exists in this column"
      else if ∃ i j : Fin 3,
          b (row.toNat / 3 * 3 + (i : Nat)) (col.toNat / 3 * 3 + (j : Nat))
            = value then
        .error "value already exists in this 3x3 box"
      else .ok ()) ∧
    (validateMove b row col value = .ok () ↔
      0 ≤ row ∧ row < 9 ∧ 0 ≤ col ∧ col < 9 ∧ 1 ≤ value ∧ value ≤ 9 ∧
      b row.toNat col.toNat = 0 ∧
      (∀ j : Fin 9, b row.toNat (j : Nat) ≠ value) ∧
      (∀ i : Fin 9, b (i : Nat) col.toNat ≠ value) ∧
      (∀ i j : Fin 3,
        b (row.toNat / 3 * 3 + (i : Nat)) (col.toNat / 3 * 3 + (j : Nat))
          ≠ value)) := by
  constructor
  · unfold validateMove
    split_ifs <;>
      simp_all [isValidInRow_iff, isValidInColumn_iff, isValidInBox_iff]
  · unfold validateMove
    split_ifs with h1 h2 h3 h4 h5 h6 <;>
      simp_all [isValidInRow_iff, isValidInColumn_iff, isValidInBox_iff] <;>
      omega

/-! ### C3 — makeMove -/

/-- C3: `MakeMove` is validation followed by a single-cell write: when
`ValidateMove` fails, `MakeMove` surfaces exactly the same error and the
board is unchanged (atomicity on error); when it succeeds, `MakeMove`
succeeds and the resulting board equals the input with only cell
(row, col) set to `value`. -/
theorem makeMove_spec (b : Board) (row col value : Int) :
    makeMove b row col value =
      match validateMove b row col value with
      | .error e => (.error e, b)
      | .ok _ => (.ok (), fun i j =>
          if i = row.toNat ∧ j = col.toNat then value else b i j) := by
  unfold makeMove
  cases validateMove b row col value <;> rfl

/-! ### C6 — guarded clear -/

/-- C6: `ClearCellWithInitialCheck` fails with the out-of-bounds error for
out-of-range coordinates; otherwise it fails exactly when the guard board
`initial` is nonzero at the cell (leaving the board unchanged), and
otherwise clears the cell to 0; and the clear handler of the hub applies
exactly this operation, with the `InitialPuzzle` of the lobby as the guard. -/
theorem clearCellWithInitialCheck_spec (b initial : Board) (row col : Int)
    (members : List Nat) (sender : Nat) :
    (clearCellWithInitialCheck b row col initial =
      if row < 0 ∨ 9 ≤ row ∨ col < 0 ∨ 9 ≤ col then
        (.error "position out of bounds", b)
      else if initial row.toNat col.toNat ≠ 0 then
        (.error "cannot clear initial puzzle cells", b)
      else
        (.ok (), fun i j =>
          if i = row.toNat ∧ j = col.toNat then 0 else b i j)) ∧
    (handleSudokuClear members sender b initial row col).1 =
      (clearCellWithInitialCheck b row col initial).2 := by
  constructor
  · rfl
  · unfold handleSudokuClear
    cases hres : clearCellWithInitialCheck b row col initial with
    | mk res b2 => cases res <;> simp [hres]

/-! ### C7 — hub move handler -/

/-- C7: the move handler of the hub: when the move fails against the puzzle
exactly one outbound message is produced — an error response echoing
row/col/value, addressed to the sender only — and the puzzle is unchanged;
when it succeeds, a success acknowledgment echoing row/col/value is
addressed to every member of the lobby (the sender is excluded nowhere),
followed by a state message carrying the updated puzzle and the initial
puzzle, again to every member. -/
theorem handleSudokuMove_spec (members : List Nat) (sender : Nat)
    (puzzle initialPuzzle : Board) (row col value : Int) :
    handleSudokuMove members sender puzzle initialPuzzle row col value =
      match validateMove puzzle row col value with
      | .error e =>
        (puzzle, [(sender, .response "error" row col value false (some e))])
      | .ok _ =>
        let b2 := setCell puzzle row.toNat col.toNat value
        (b2,
          members.map
            (fun m => (m, OutMsg.response "success" row col value true none))
          ++ members.map
            (fun m => (m, OutMsg.state (boardToLists b2)
                (boardToLists initialPuzzle)))) := by
  unfold handleSudokuMove makeMove
  cases validateMove puzzle row col value <;> rfl

/-! ### C8 — board copies are independent -/

/-- C8: `Copy` returns a board with the same 81 cell values, and the
copy and the original are independent: in this value-semantics embedding
a write to one board is a function update that leaves every cell of the
value of the other board unchanged.  The single-cell-update equations (in both
directions) express the absence of aliasing, and every mutating operation
(`MakeMove` and the two clears) factors through such a single-cell update
or the identity. -/
theorem copyBoard_spec (b : Board) (row col : Nat) (v : Int) :
    (∀ i j : Fin 9, copyBoard b (i : Nat) (j : Nat) = b (i : Nat) (j : Nat)) ∧
    (∀ i j : Fin 9, setCell (copyBoard b) row col v (i : Nat) (j : Nat) =
      if (i : Nat) = row ∧ (j : Nat) = col then v else b (i : Nat) (j : Nat)) ∧
    (∀ i j : Fin 9, setCell b row col v (i : Nat) (j : Nat) =
      if (i : Nat) = row ∧ (j : Nat) = col then v
      else copyBoard b (i : Nat) (j : Nat)) ∧
    (∀ r2 c2 v2 : Int,
      (makeMove (copyBoard b) r2 c2 v2).2 = copyBoard b ∨
      (makeMove (copyBoard b) r2 c2 v2).2
        = setCell (copyBoard b) r2.toNat c2.toNat v2) ∧
    (∀ r2 c2 : Int,
      (clearCell (copyBoard b) r2 c2).2 = copyBoard b ∨
      (clearCell (copyBoard b) r2 c2).2
        = setCell (copyBoard b) r2.toNat c2.toNat 0) ∧
    (∀ (r2 c2 : Int) (init : Board),
      (clearCellWithInitialCheck (copyBoard b) r2 c2 init).2 = copyBoard b ∨
      (clearCellWithInitialCheck (copyBoard b) r2 c2 init).2
        = setCell (copyBoard b) r2.toNat c2.toNat 0) := by
  refine ⟨?_, ?_, ?_, ?_, ?_, ?_⟩
  · intro i j
    simp [copyBoard, i.isLt, j.isLt]
  · intro i j
    by_cases h : (i : Nat) = row ∧ (j : Nat) = col <;>
      simp [setCell, copyBoard, h, i.isLt, j.isLt]
  · intro i j
    by_cases h : (i : Nat) = row ∧ (j : Nat) = col <;>
      simp [setCell, copyBoard, h, i.isLt, j.isLt]
  · intro r2 c2 v2
    unfold makeMove
    cases validateMove (copyBoard b) r2 c2 v2 <;> simp
  · intro r2 c2
    unfold clearCell
    split_ifs <;> simp
  · intro r2 c2 init
    unfold clearCellWithInitialCheck
    split_ifs <;> simp

/-! ### C9 — cell values stay in [0, 9] -/

lemma validateMove_ok_facts (b : Board) (row col value : Int)
    (h : validateMove b row col value = .ok ()) :
    0 ≤ row ∧ row < 9 ∧ 0 ≤ col ∧ col < 9 ∧ 1 ≤ value ∧ value ≤ 9 ∧
      b row.toNat col.toNat = 0 ∧
      isValidInRow b row.toNat value = true ∧
      isValidInColumn b col.toNat value = true ∧
      isValidInBox b row.toNat col.toNat value = true := by
  unfold validateMove at h
  split_ifs at h with h1 h2 h3 h4 h5 h6
  refine ⟨?_, ?_, ?_, ?_, ?_, ?_, ?_, ?_, ?_, ?_⟩ <;>
    first
      | omega
      | simpa using h3
      | simpa using h4
      | simpa using h5
      | simpa using h6

lemma setCell_range (b : Board) (row col : Nat) (v : Int)
    (hb : CellsInRange b) (hv : 0 ≤ v ∧ v ≤ 9) :
    CellsInRange (setCell b row col v) := by
  intro r c
  by_cases h : (r : Nat) = row ∧ (c : Nat) = col <;>
    simp only [setCell, h, if_true, if_false, if_pos, if_neg, not_false_iff]
  · exact hv
  · exact hb r c

/-- C9 (implicit invariant): every mutating board operation preserves the
invariant that all 81 cells lie in [0, 9], whether the call succeeds or
fails; moreover `MakeMove` either leaves the board unchanged or writes a
single value in [1, 9], and the clear operations either leave the board
unchanged or write a single 0. -/
theorem boardOps_preserve_range (b init : Board) (row col value : Int)
    (hb : CellsInRange b) :
    CellsInRange (makeMove b row col value).2 ∧
    CellsInRange (clearCell b row col).2 ∧
    CellsInRange (clearCellWithInitialCheck b row col init).2 ∧
    ((makeMove b row col value).2 = b ∨
      ((makeMove b row col value).2 = setCell b row.toNat col.toNat value ∧
        1 ≤ value ∧ value ≤ 9)) ∧
    ((clearCell b row col).2 = b ∨
      (clearCell b row col).2 = setCell b row.toNat col.toNat 0) ∧
    ((clearCellWithInitialCheck b row col init).2 = b ∨
      (clearCellWithInitialCheck b row col init).2
        = setCell b row.toNat col.toNat 0) := by
  have hmove : (makeMove b row col value).2 = b ∨
      ((makeMove b row col value).2 = setCell b row.toNat col.toNat value ∧
        1 ≤ value ∧ value ≤ 9) := by
    unfold makeMove
    cases h : validateMove b row col value with
    | error e => simp
    | ok u =>
      right
      cases u
      obtain ⟨-, -, -, -, hv1, hv9, -⟩ := validateMove_ok_facts b row col value h
      exact ⟨rfl, hv1, hv9⟩
  have hclear : (clearCell b row col).2 = b ∨
      (clearCell b row col).2 = setCell b row.toNat col.toNat 0 := by
    unfold clearCell
    split_ifs <;> simp
  have hclear2 : (clearCellWithInitialCheck b row col init).2 = b ∨
      (clearCellWithInitialCheck b row col init).2
        = setCell b row.toNat col.toNat 0 := by
    unfold clearCellWithInitialCheck
    split_ifs <;> simp
  refine ⟨?_, ?_, ?_, hmove, hclear, hclear2⟩
  · rcases hmove with h | ⟨h, h1, h9⟩ <;> rw [h]
    · exact hb
    · exact setCell_range b _ _ value hb ⟨by omega, h9⟩
  · rcases hclear with h | h <;> rw [h]
    · exact hb
    · exact setCell_range b _ _ 0 hb ⟨le_refl 0, by omega⟩
  · rcases hclear2 with h | h <;> rw [h]
    · exact hb
    · exact setCell_range b _ _ 0 hb ⟨le_refl 0, by omega⟩

/-- Witness for C9 at a concrete input: the zero board, an in-range cell
and value. -/
theorem boardOps_preserve_range_witness :
    CellsInRange emptyBoard ∧
    CellsInRange (makeMove emptyBoard 0 2 4).2 ∧
    CellsInRange (clearCell emptyBoard 0 2).2 ∧
    CellsInRange (clearCellWithInitialCheck emptyBoard 0 2 emptyBoard).2 := by
  have h := boardOps_preserve_range emptyBoard emptyBoard 0 2 4 (by decide)
  exact ⟨by decide, h.1, h.2.1, h.2.2.1⟩

/-! ### Lemmas on findEmptyCells and validity congruence -/

lemma mem_findEmptyCells (b : Board) (r c : Nat) :
    (r, c) ∈ findEmptyCells b ↔ r < 9 ∧ c < 9 ∧ b r c = 0 := by
  simp only [findEmptyCells, List.mem_flatMap, List.mem_filterMap,
    List.mem_range]
  constructor
  · rintro ⟨row, hrow, col, hcol, hif⟩
    split_ifs at hif with h0
    simp only [Option.some.injEq, Prod.mk.injEq] at hif
    obtain ⟨rfl, rfl⟩ := hif
    exact ⟨hrow, hcol, h0⟩
  · rintro ⟨hr, hc, h0⟩
    exact ⟨r, hr, c, hc, by simp [h0]⟩

lemma isValidRow_congr (b b2 : Board) (row : Nat) (hrow : row < 9)
    (hEq : ∀ r c : Nat, r < 9 → c < 9 → b r c = b2 r c) :
    isValidRow b row = isValidRow b2 row := by
  unfold isValidRow
  rw [decide_eq_decide]
  constructor
  · intro H c1 c2 hlt h0
    rw [← hEq row c1 hrow c1.isLt, ← hEq row c2 hrow c2.isLt]
    exact H c1 c2 hlt (by rwa [hEq row c1 hrow c1.isLt])
  · intro H c1 c2 hlt h0
    rw [hEq row c1 hrow c1.isLt, hEq row c2 hrow c2.isLt]
    exact H c1 c2 hlt (by rwa [← hEq row c1 hrow c1.isLt])

lemma isValidColumn_congr (b b2 : Board) (col : Nat) (hcol : col < 9)
    (hEq : ∀ r c : Nat, r < 9 → c < 9 → b r c = b2 r c) :
    isValidColumn b col = isValidColumn b2 col := by
  unfold isValidColumn
  rw [decide_eq_decide]
  constructor
  · intro H r1 r2 hlt h0
    rw [← hEq r1 col r1.isLt hcol, ← hEq r2 col r2.isLt hcol]
    exact H r1 r2 hlt (by rwa [hEq r1 col r1.isLt hcol])
  · intro H r1 r2 hlt h0
    rw [hEq r1 col r1.isLt hcol, hEq r2 col r2.isLt hcol]
    exact H r1 r2 hlt (by rwa [← hEq r1 col r1.isLt hcol])

lemma isValidBox_congr (b b2 : Board) (boxRow boxCol : Nat)
    (hbr : boxRow + 3 ≤ 9) (hbc : boxCol + 3 ≤ 9)
    (hEq : ∀ r c : Nat, r < 9 → c < 9 → b r c = b2 r c) :
    isValidBox b boxRow boxCol = isValidBox b2 boxRow boxCol := by
  have hb : ∀ p : Fin 3 × Fin 3,
      b (boxRow + (p.1 : Nat)) (boxCol + (p.2 : Nat))
        = b2 (boxRow + (p.1 : Nat)) (boxCol + (p.2 : Nat)) := by
    intro p
    have h1 : (p.1 : Nat) < 3 := p.1.isLt
    have h2 : (p.2 : Nat) < 3 := p.2.isLt
    exact hEq _ _ (by omega) (by omega)
  unfold isValidBox
  rw [decide_eq_decide]
  constructor
  · intro H p q hpq h0
    rw [← hb p, ← hb q]
    exact H p q hpq (by rwa [hb p])
  · intro H p q hpq h0
    rw [hb p, hb q]
    exact H p q hpq (by rwa [← hb p])

lemma isValid_congr (b b2 : Board)
    (hEq : ∀ r c : Nat, r < 9 → c < 9 → b r c = b2 r c) :
    isValid b = isValid b2 := by
  unfold isValid
  have h1 : ∀ row : Fin 9, isValidRow b (row : Nat) = isValidRow b2 (row : Nat) :=
    fun row => isValidRow_congr b b2 row row.isLt hEq
  have h2 : ∀ col : Fin 9,
      isValidColumn b (col : Nat) = isValidColumn b2 (col : Nat) :=
    fun col => isValidColumn_congr b b2 col col.isLt hEq
  have h3 : ∀ br bc : Fin 3,
      isValidBox b (3 * (br : Nat)) (3 * (bc : Nat))
        = isValidBox b2 (3 * (br : Nat)) (3 * (bc : Nat)) := by
    intro br bc
    have hbr : (br : Nat) < 3 := br.isLt
    have hbc : (bc : Nat) < 3 := bc.isLt
    exact isValidBox_congr b b2 _ _ (by omega) (by omega) hEq
  have e1 : decide (∀ row : Fin 9, isValidRow b (row : Nat) = true)
      = decide (∀ row : Fin 9, isValidRow b2 (row : Nat) = true) := by
    rw [decide_eq_decide]
    exact forall_congr' fun row => by rw [h1 row]
  have e2 : decide (∀ col : Fin 9, isValidColumn b (col : Nat) = true)
      = decide (∀ col : Fin 9, isValidColumn b2 (col : Nat) = true) := by
    rw [decide_eq_decide]
    exact forall_congr' fun col => by rw [h2 col]
  have e3 : decide (∀ br bc : Fin 3,
        isValidBox b (3 * (br : Nat)) (3 * (bc : Nat)) = true)
      = decide (∀ br bc : Fin 3,
        isValidBox b2 (3 * (br : Nat)) (3 * (bc : Nat)) = true) := by
    rw [decide_eq_decide]
    exact forall_congr' fun br => forall_congr' fun bc => by rw [h3 br bc]
  rw [e1, e2, e3]

/-! ### C10 — uniqueness test on boards with no empty cell -/

/-- C10: `hasUniqueSolution` returns `true` for every board with no empty
cell, without consulting the counting solver — even when the board is
invalid and hence (being fully filled) has no completion at all. -/
theorem hasUniqueSolution_full_board (b : Board)
    (h : findEmptyCells b = []) :
    hasUniqueSolution b = true ∧
      (isValid b = false → ¬ ∃ b2, Completion b b2) := by
  constructor
  · simp [hasUniqueSolution, h]
  · rintro hv ⟨b2, h19, hkeep, hval⟩
    have hne : ∀ r c : Fin 9, b (r : Nat) (c : Nat) ≠ 0 := by
      intro r c h0
      have hm : ((r : Nat), (c : Nat)) ∈ findEmptyCells b :=
        (mem_findEmptyCells b r c).mpr ⟨r.isLt, c.isLt, h0⟩
      rw [h] at hm
      exact absurd hm (List.not_mem_nil _)
    have hEq : ∀ r c : Nat, r < 9 → c < 9 → b2 r c = b r c :=
      fun r c hr hc => hkeep ⟨r, hr⟩ ⟨c, hc⟩ (hne ⟨r, hr⟩ ⟨c, hc⟩)
    have hiv := isValid_congr b2 b hEq
    rw [hval, hv] at hiv
    simp at hiv

/-- Witness for C10: the all-ones board is fully filled and grossly
invalid, yet `hasUniqueSolution` reports `true`; and indeed it has no
completion. -/
theorem hasUniqueSolution_full_board_witness :
    findEmptyCells (fun _ _ => (1 : Int)) = [] ∧
      hasUniqueSolution (fun _ _ => (1 : Int)) = true ∧
      isValid (fun _ _ => (1 : Int)) = false ∧
      ¬ ∃ b2, Completion (fun _ _ => (1 : Int)) b2 := by
  have h : findEmptyCells (fun _ _ => (1 : Int)) = [] := by decide
  have hv : isValid (fun _ _ => (1 : Int)) = false := by decide
  exact ⟨h, (hasUniqueSolution_full_board _ h).1, hv,
    (hasUniqueSolution_full_board _ h).2 hv⟩

/-! ### Validity interface: duplicate-freeness and preservation -/

lemma isValid_parts (b : Board) (hv : isValid b = true) :
    (∀ row : Fin 9, isValidRow b (row : Nat) = true) ∧
    (∀ col : Fin 9, isValidColumn b (col : Nat) = true) ∧
    (∀ br bc : Fin 3, isValidBox b (3 * (br : Nat)) (3 * (bc : Nat)) = true) := by
  unfold isValid at hv
  simp only [Bool.and_eq_true, decide_eq_true_eq] at hv
  exact ⟨hv.1.1, hv.1.2, hv.2⟩

lemma valid_row_ne (b : Board) (hv : isValid b = true) {r c1 c2 : Nat}
    (hr : r < 9) (h1 : c1 < 9) (h2 : c2 < 9) (hne : c1 ≠ c2)
    (h0 : b r c1 ≠ 0) : b r c1 ≠ b r c2 := by
  intro heq
  have hR := (isValid_parts b hv).1 ⟨r, hr⟩
  unfold isValidRow at hR
  have hP := of_decide_eq_true hR
  rcases Nat.lt_or_ge c1 c2 with h | h
  · exact hP ⟨c1, h1⟩ ⟨c2, h2⟩ h h0 heq
  · have hlt : c2 < c1 := by omega
    have h02 : b r c2 ≠ 0 := by rw [← heq]; exact h0
    exact hP ⟨c2, h2⟩ ⟨c1, h1⟩ hlt h02 heq.symm

lemma valid_col_ne (b : Board) (hv : isValid b = true) {r1 r2 c : Nat}
    (h1 : r1 < 9) (h2 : r2 < 9) (hc : c < 9) (hne : r1 ≠ r2)
    (h0 : b r1 c ≠ 0) : b r1 c ≠ b r2 c := by
  intro heq
  have hC := (isValid_parts b hv).2.1 ⟨c, hc⟩
  unfold isValidColumn at hC
  have hP := of_decide_eq_true hC
  rcases Nat.lt_or_ge r1 r2 with h | h
  · exact hP ⟨r1, h1⟩ ⟨r2, h2⟩ h h0 heq
  · have hlt : r2 < r1 := by omega
    have h02 : b r2 c ≠ 0 := by rw [← heq]; exact h0
    exact hP ⟨r2, h2⟩ ⟨r1, h1⟩ hlt h02 heq.symm

lemma valid_box_ne (b : Board) (hv : isValid b = true) {r1 c1 r2 c2 : Nat}
    (hr1 : r1 < 9) (hc1 : c1 < 9) (hr2 : r2 < 9) (hc2 : c2 < 9)
    (hbr : r1 / 3 = r2 / 3) (hbc : c1 / 3 = c2 / 3)
    (hne : ¬(r1 = r2 ∧ c1 = c2)) (h0 : b r1 c1 ≠ 0) :
    b r1 c1 ≠ b r2 c2 := by
  intro heq
  have hB := (isValid_parts b hv).2.2 ⟨r1 / 3, by omega⟩ ⟨c1 / 3, by omega⟩
  unfold isValidBox at hB
  have hP := of_decide_eq_true hB
  have hpq : (⟨⟨r1 % 3, by omega⟩, ⟨c1 % 3, by omega⟩⟩ : Fin 3 × Fin 3)
      ≠ ⟨⟨r2 % 3, by omega⟩, ⟨c2 % 3, by omega⟩⟩ := by
    intro hEq
    simp only [Prod.mk.injEq, Fin.mk.injEq] at hEq
    exact hne (by omega)
  have hPinst := hP ⟨⟨r1 % 3, by omega⟩, ⟨c1 % 3, by omega⟩⟩
    ⟨⟨r2 % 3, by omega⟩, ⟨c2 % 3, by omega⟩⟩ hpq
  have e1 : 3 * (r1 / 3) + r1 % 3 = r1 := by omega
  have e2 : 3 * (c1 / 3) + c1 % 3 = c1 := by omega
  have e3 : 3 * (r1 / 3) + r2 % 3 = r2 := by omega
  have e4 : 3 * (c1 / 3) + c2 % 3 = c2 := by omega
  rw [e1, e2, e3, e4] at hPinst
  exact hPinst h0 heq

lemma canPlace_parts (b : Board) {r c : Nat} {v : Int}
    (h : canPlace b r c v = true) :
    (∀ col : Fin 9, b r (col : Nat) ≠ v) ∧
    (∀ row : Fin 9, b (row : Nat) c ≠ v) ∧
    (∀ i j : Fin 3, b (r / 3 * 3 + (i : Nat)) (c / 3 * 3 + (j : Nat)) ≠ v) := by
  unfold canPlace isValidInRow isValidInColumn isValidInBox at h
  simp only [Bool.and_eq_true, decide_eq_true_eq] at h
  exact ⟨h.1.1, h.1.2, h.2⟩

/-- Placing either a 0 or a `canPlace`-consistent value keeps the board
duplicate-free. -/
lemma isValid_setCell (b : Board) {r c : Nat} (v : Int) (hr : r < 9)
    (hc : c < 9) (hv : isValid b = true)
    (hok : v = 0 ∨ canPlace b r c v = true) :
    isValid (setCell b r c v) = true := by
  have hrow0 : ∀ col : Fin 9, v ≠ 0 → b r (col : Nat) ≠ v := by
    intro col h0
    rcases hok with h | h
    · exact absurd h h0
    · exact (canPlace_parts b h).1 col
  have hcol0 : ∀ row : Fin 9, v ≠ 0 → b (row : Nat) c ≠ v := by
    intro row h0
    rcases hok with h | h
    · exact absurd h h0
    · exact (canPlace_parts b h).2.1 row
  have hbox0 : ∀ i j : Fin 3, v ≠ 0 →
      b (r / 3 * 3 + (i : Nat)) (c / 3 * 3 + (j : Nat)) ≠ v := by
    intro i j h0
    rcases hok with h | h
    · exact absurd h h0
    · exact (canPlace_parts b h).2.2 i j
  unfold isValid
  simp only [Bool.and_eq_true, decide_eq_true_eq]
  refine ⟨⟨?_, ?_⟩, ?_⟩
  · -- rows
    intro row
    unfold isValidRow
    rw [decide_eq_true_eq]
    intro c1 c2 hlt hnz heq
    by_cases hp1 : (row : Nat) = r ∧ (c1 : Nat) = c <;>
      by_cases hp2 : (row : Nat) = r ∧ (c2 : Nat) = c
    · exact absurd (Fin.ext (hp1.2.trans hp2.2.symm)) (Nat.lt_irrefl _ ∘
        fun h => h ▸ hlt)
    · simp only [setCell] at heq hnz
      rw [if_pos hp1] at heq hnz
      rw [if_neg hp2] at heq
      exact hrow0 c2 hnz (by rw [← hp1.1]; exact heq.symm)
    · simp only [setCell] at heq hnz
      rw [if_neg hp1] at heq hnz
      rw [if_pos hp2] at heq
      exact hrow0 c1 (by rw [← heq]; exact hnz) (by rw [← hp2.1]; exact heq)
    · simp only [setCell] at heq hnz
      rw [if_neg hp1] at heq hnz
      rw [if_neg hp2] at heq
      exact valid_row_ne b hv row.isLt c1.isLt c2.isLt
        (fun h => by cases Fin.ext h; exact absurd hlt (lt_irrefl _)) hnz heq
  · -- columns
    intro col
    unfold isValidColumn
    rw [decide_eq_true_eq]
    intro r1 r2 hlt hnz heq
    by_cases hp1 : (r1 : Nat) = r ∧ (col : Nat) = c <;>
      by_cases hp2 : (r2 : Nat) = r ∧ (col : Nat) = c
    · exact absurd (Fin.ext (hp1.1.trans hp2.1.symm)) (Nat.lt_irrefl _ ∘
        fun h => h ▸ hlt)
    · simp only [setCell] at heq hnz
      rw [if_pos hp1] at heq hnz
      rw [if_neg hp2] at heq
      exact hcol0 r2 hnz (by rw [← hp1.2]; exact heq.symm)
    · simp only [setCell] at heq hnz
      rw [if_neg hp1] at heq hnz
      rw [if_pos hp2] at heq
      exact hcol0 r1 (by rw [← heq]; exact hnz) (by rw [← hp2.2]; exact heq)
    · simp only [setCell] at heq hnz
      rw [if_neg hp1] at heq hnz
      rw [if_neg hp2] at heq
      exact valid_col_ne b hv r1.isLt r2.isLt col.isLt
        (fun h => by cases Fin.ext h; exact absurd hlt (lt_irrefl _)) hnz heq
  · -- boxes
    intro br bc
    unfold isValidBox
    rw [decide_eq_true_eq]
    intro p q hpq hnz heq
    by_cases hp1 : 3 * (br : Nat) + (p.1 : Nat) = r ∧
        3 * (bc : Nat) + (p.2 : Nat) = c <;>
      by_cases hp2 : 3 * (br : Nat) + (q.1 : Nat) = r ∧
          3 * (bc : Nat) + (q.2 : Nat) = c
    · exfalso
      apply hpq
      have e1 : (p.1 : Nat) = (q.1 : Nat) := by omega
      have e2 : (p.2 : Nat) = (q.2 : Nat) := by omega
      exact Prod.ext (Fin.ext e1) (Fin.ext e2)
    · simp only [setCell] at heq hnz
      rw [if_pos hp1] at heq hnz
      rw [if_neg hp2] at heq
      have hbrv : (br : Nat) = r / 3 := by
        have := p.1.isLt
        omega
      have hbcv : (bc : Nat) = c / 3 := by
        have := p.2.isLt
        omega
      have hq := hbox0 q.1 q.2 hnz
      have e1 : r / 3 * 3 + (q.1 : Nat) = 3 * (br : Nat) + (q.1 : Nat) := by
        omega
      have e2 : c / 3 * 3 + (q.2 : Nat) = 3 * (bc : Nat) + (q.2 : Nat) := by
        omega
      rw [e1, e2] at hq
      exact hq heq.symm
    · simp only [setCell] at heq hnz
      rw [if_neg hp1] at heq hnz
      rw [if_pos hp2] at heq
      have hbrv : (br : Nat) = r / 3 := by
        have := q.1.isLt
        omega
      have hbcv : (bc : Nat) = c / 3 := by
        have := q.2.isLt
        omega
      have hq := hbox0 p.1 p.2 (by rw [← heq]; exact hnz)
      have e1 : r / 3 * 3 + (p.1 : Nat) = 3 * (br : Nat) + (p.1 : Nat) := by
        omega
      have e2 : c / 3 * 3 + (p.2 : Nat) = 3 * (bc : Nat) + (p.2 : Nat) := by
        omega
      rw [e1, e2] at hq
      exact hq heq
    · simp only [setCell] at heq hnz
      rw [if_neg hp1] at heq hnz
      rw [if_neg hp2] at heq
      have hb1 : 3 * (br : Nat) + (p.1 : Nat) < 9 := by
        have := br.isLt
        have := p.1.isLt
        omega
      have hb2 : 3 * (bc : Nat) + (p.2 : Nat) < 9 := by
        have := bc.isLt
        have := p.2.isLt
        omega
      have hb3 : 3 * (br : Nat) + (q.1 : Nat) < 9 := by
        have := br.isLt
        have := q.1.isLt
        omega
      have hb4 : 3 * (bc : Nat) + (q.2 : Nat) < 9 := by
        have := bc.isLt
        have := q.2.isLt
        omega
      have hdbr : (3 * (br : Nat) + (p.1 : Nat)) / 3
          = (3 * (br : Nat) + (q.1 : Nat)) / 3 := by
        have := p.1.isLt
        have := q.1.isLt
        omega
      have hdbc : (3 * (bc : Nat) + (p.2 : Nat)) / 3
          = (3 * (bc : Nat) + (q.2 : Nat)) / 3 := by
        have := p.2.isLt
        have := q.2.isLt
        omega
      have hnepq : ¬(3 * (br : Nat) + (p.1 : Nat) = 3 * (br : Nat) + (q.1 : Nat)
          ∧ 3 * (bc : Nat) + (p.2 : Nat) = 3 * (bc : Nat) + (q.2 : Nat)) := by
        rintro ⟨ha, hb⟩
        apply hpq
        exact Prod.ext (Fin.ext (by omega)) (Fin.ext (by omega))
      exact valid_box_ne b hv hb1 hb2 hb3 hb4 hdbr hdbc hnepq hnz heq

/-! ### Unfolding equations for the counting solver -/

lemma countN_nil (b : Board) : countN b [] = 1 := by
  rw [countN]

lemma countN_cons (b : Board) (r c : Nat) (rest : List (Nat × Nat)) :
    countN b ((r, c) :: rest) = countLoopN b r c rest oneToNine := by
  rw [countN]

lemma countLoopN_nil (b : Board) (r c : Nat) (rest : List (Nat × Nat)) :
    countLoopN b r c rest [] = 0 := by
  rw [countLoopN]

lemma countLoopN_cons (b : Board) (r c : Nat) (rest : List (Nat × Nat))
    (num : Int) (ns : List Int) :
    countLoopN b r c rest (num :: ns)
      = (if canPlace b r c num then countN (setCell b r c num) rest else 0)
        + countLoopN b r c rest ns := by
  rw [countLoopN]

lemma solveCount_big (b : Board) (cells : List (Nat × Nat)) {count : Nat}
    (h : 1 < count) : solveCount b cells count = count := by
  cases cells <;> · rw [solveCount]
                    simp [h]

lemma solveCount_nil (b : Board) {count : Nat} (h : ¬ 1 < count) :
    solveCount b [] count = count + 1 := by
  rw [solveCount]
  simp [h]

lemma solveCount_cons (b : Board) (r c : Nat) (rest : List (Nat × Nat))
    {count : Nat} (h : ¬ 1 < count) :
    solveCount b ((r, c) :: rest) count
      = oneToNine.foldl
          (fun cnt num =>
            if canPlace b r c num then solveCount (setCell b r c num) rest cnt
            else cnt) count := by
  rw [solveCount]
  simp [h]

lemma fillFrom_eq (perms : Nat → List Int) (idx k : Nat) (b : Board) :
    fillFrom perms idx k b =
      if 81 ≤ idx then (some b, k)
      else fillTry perms idx (perms k) (k + 1) b := by
  rw [fillFrom]

lemma fillTry_nil (perms : Nat → List Int) (idx k : Nat) (b : Board) :
    fillTry perms idx [] k b = (none, k) := by
  rw [fillTry]

lemma fillTry_cons (perms : Nat → List Int) (idx : Nat) (num : Int)
    (ns : List Int) (k : Nat) (b : Board) :
    fillTry perms idx (num :: ns) k b =
      if canPlace b (idx / 9) (idx % 9) num then
        match fillFrom perms (idx + 1) k (setCell b (idx / 9) (idx % 9) num) with
        | (some b2, k2) => (some b2, k2)
        | (none, k2) => fillTry perms idx ns k2 b
      else fillTry perms idx ns k b := by
  rw [fillTry]

lemma solveSingle_nil (b : Board) : solveSingle b [] = some b := by
  rw [solveSingle]

lemma solveSingle_cons (b : Board) (r c : Nat) (rest : List (Nat × Nat)) :
    solveSingle b ((r, c) :: rest) = solveSingleLoop b r c rest oneToNine := by
  rw [solveSingle]

lemma solveSingleLoop_nil (b : Board) (r c : Nat) (rest : List (Nat × Nat)) :
    solveSingleLoop b r c rest [] = none := by
  rw [solveSingleLoop]

lemma solveSingleLoop_cons (b : Board) (r c : Nat) (rest : List (Nat × Nat))
    (num : Int) (ns : List Int) :
    solveSingleLoop b r c rest (num :: ns) =
      if canPlace b r c num then
        match solveSingle (setCell b r c num) rest with
        | some b2 => some b2
        | none => solveSingleLoop b r c rest ns
      else solveSingleLoop b r c rest ns := by
  rw [solveSingleLoop]

/-! ### The counter computed by counting-mode solve -/

lemma oneToNine_bounds {v : Int} (h : v ∈ oneToNine) : 1 ≤ v ∧ v ≤ 9 := by
  fin_cases h <;> norm_num

lemma mem_oneToNine {v : Int} (h1 : 1 ≤ v) (h9 : v ≤ 9) : v ∈ oneToNine := by
  interval_cases v <;> decide

lemma oneToNine_nodup : oneToNine.Nodup := by decide

/-- The short-circuiting counter of `solve` computes exactly
`min 2 (count + countN)`: the true branch count, saturated at 2. -/
lemma solveCount_min :
    ∀ (cells : List (Nat × Nat)) (b : Board) (count : Nat), count ≤ 2 →
      solveCount b cells count = min 2 (count + countN b cells) := by
  intro cells
  induction cells with
  | nil =>
    intro b count hc
    by_cases h : 1 < count
    · rw [solveCount_big b [] h, countN_nil]
      omega
    · rw [solveCount_nil b h, countN_nil]
      omega
  | cons hd rest IH =>
    obtain ⟨r, c⟩ := hd
    have loop : ∀ (nums : List Int) (b : Board) (count : Nat), count ≤ 2 →
        List.foldl
          (fun cnt num =>
            if canPlace b r c num then solveCount (setCell b r c num) rest cnt
            else cnt) count nums
          = min 2 (count + countLoopN b r c rest nums) := by
      intro nums
      induction nums with
      | nil =>
        intro b count hc
        rw [List.foldl_nil, countLoopN_nil]
        omega
      | cons num ns IHn =>
        intro b count hc
        rw [List.foldl_cons, countLoopN_cons]
        by_cases hcp : canPlace b r c num = true
        · rw [if_pos hcp, if_pos hcp]
          rw [IH (setCell b r c num) count hc]
          rw [IHn b (min 2 (count + countN (setCell b r c num) rest))
            (by omega)]
          omega
        · rw [if_neg hcp, if_neg hcp]
          rw [IHn b count hc]
          omega
    intro b count hc
    by_cases h : 1 < count
    · rw [solveCount_big b _ h, countN_cons]
      have : countLoopN b r c rest oneToNine = countLoopN b r c rest oneToNine :=
        rfl
      omega
    · rw [solveCount_cons b r c rest h, countN_cons]
      exact loop oneToNine b count hc

lemma countLoopN_pos (b : Board) (r c : Nat) (rest : List (Nat × Nat)) :
    ∀ nums : List Int, 1 ≤ countLoopN b r c rest nums →
      ∃ num ∈ nums, canPlace b r c num = true ∧
        1 ≤ countN (setCell b r c num) rest := by
  intro nums
  induction nums with
  | nil =>
    intro h
    rw [countLoopN_nil] at h
    omega
  | cons num ns IHn =>
    intro h
    rw [countLoopN_cons] at h
    by_cases hcp : canPlace b r c num = true
    · rw [if_pos hcp] at h
      by_cases h1 : 1 ≤ countN (setCell b r c num) rest
      · exact ⟨num, List.mem_cons_self _ _, hcp, h1⟩
      · obtain ⟨x, hx, hcx, hnx⟩ := IHn (by omega)
        exact ⟨x, List.mem_cons_of_mem _ hx, hcx, hnx⟩
    · rw [if_neg hcp] at h
      obtain ⟨x, hx, hcx, hnx⟩ := IHn (by omega)
      exact ⟨x, List.mem_cons_of_mem _ hx, hcx, hnx⟩

lemma countN_le_countLoopN (b : Board) (r c : Nat) (rest : List (Nat × Nat)) :
    ∀ (nums : List Int) (num : Int), num ∈ nums →
      canPlace b r c num = true →
      countN (setCell b r c num) rest ≤ countLoopN b r c rest nums := by
  intro nums
  induction nums with
  | nil =>
    intro num h
    cases h
  | cons x ns IHn =>
    intro num hmem hcp
    rw [countLoopN_cons]
    rcases List.mem_cons.mp hmem with rfl | hmem2
    · rw [if_pos hcp]
      omega
    · have := IHn num hmem2 hcp
      by_cases hx : canPlace b r c x = true
      · rw [if_pos hx]
        omega
      · rw [if_neg hx]
        omega

lemma countLoopN_pair (b : Board) (r c : Nat) (rest : List (Nat × Nat)) :
    ∀ (nums : List Int) (num1 num2 : Int), nums.Nodup →
      num1 ∈ nums → num2 ∈ nums → num1 ≠ num2 →
      canPlace b r c num1 = true → canPlace b r c num2 = true →
      countN (setCell b r c num1) rest + countN (setCell b r c num2) rest
        ≤ countLoopN b r c rest nums := by
  intro nums
  induction nums with
  | nil =>
    intro num1 num2 _ h1
    cases h1
  | cons x ns IHn =>
    intro num1 num2 hnd h1 h2 hne hcp1 hcp2
    have hndtail := (List.nodup_cons.mp hnd).2
    rw [countLoopN_cons]
    rcases List.mem_cons.mp h1 with rfl | h1'
    · have h2' : num2 ∈ ns := by
        rcases List.mem_cons.mp h2 with rfl | h
        · exact absurd rfl hne
        · exact h
      rw [if_pos hcp1]
      have := countN_le_countLoopN b r c rest ns num2 h2' hcp2
      omega
    · rcases List.mem_cons.mp h2 with rfl | h2'
      · rw [if_pos hcp2]
        have := countN_le_countLoopN b r c rest ns num1 h1' hcp1
        omega
      · have := IHn num1 num2 hndtail h1' h2' hne hcp1 hcp2
        by_cases hx : canPlace b r c x = true
        · rw [if_pos hx]
          omega
        · rw [if_neg hx]
          omega

/-! ### Completions versus single placements -/

/-- The value a completion assigns to an empty in-range cell is a
consistent placement on the current board. -/
lemma completion_canPlace (b b2 : Board) (hcomp : Completion b b2)
    {r c : Nat} (hr : r < 9) (hc : c < 9) (h0 : b r c = 0) :
    canPlace b r c (b2 r c) = true := by
  obtain ⟨h19, hkeep, hval⟩ := hcomp
  have hvpos : b2 r c ≠ 0 := by
    have := h19 ⟨r, hr⟩ ⟨c, hc⟩
    simp only at this
    omega
  unfold canPlace isValidInRow isValidInColumn isValidInBox
  simp only [Bool.and_eq_true, decide_eq_true_eq]
  refine ⟨⟨?_, ?_⟩, ?_⟩
  · -- row
    intro col heq
    have hbx : b r (col : Nat) ≠ 0 := by rw [heq]; exact hvpos
    have hkx : b2 r (col : Nat) = b r (col : Nat) := hkeep ⟨r, hr⟩ col hbx
    have hnex : (col : Nat) ≠ c := by
      intro hEq
      rw [hEq, h0] at heq
      exact hvpos heq.symm
    exact valid_row_ne b2 hval hr col.isLt hc hnex
      (by rw [hkx]; exact hbx) (hkx.trans heq)
  · -- column
    intro row heq
    have hbx : b (row : Nat) c ≠ 0 := by rw [heq]; exact hvpos
    have hkx : b2 (row : Nat) c = b (row : Nat) c := hkeep row ⟨c, hc⟩ hbx
    have hner : (row : Nat) ≠ r := by
      intro hEq
      rw [hEq, h0] at heq
      exact hvpos heq.symm
    exact valid_col_ne b2 hval row.isLt hr hc hner
      (by rw [hkx]; exact hbx) (hkx.trans heq)
  · -- box
    intro i j heq
    have hi : (i : Nat) < 3 := i.isLt
    have hj : (j : Nat) < 3 := j.isLt
    have hrr : r / 3 * 3 + (i : Nat) < 9 := by omega
    have hcc : c / 3 * 3 + (j : Nat) < 9 := by omega
    have hbx : b (r / 3 * 3 + (i : Nat)) (c / 3 * 3 + (j : Nat)) ≠ 0 := by
      rw [heq]
      exact hvpos
    have hkx : b2 (r / 3 * 3 + (i : Nat)) (c / 3 * 3 + (j : Nat))
        = b (r / 3 * 3 + (i : Nat)) (c / 3 * 3 + (j : Nat)) :=
      hkeep ⟨_, hrr⟩ ⟨_, hcc⟩ hbx
    have hne : ¬(r / 3 * 3 + (i : Nat) = r ∧ c / 3 * 3 + (j : Nat) = c) := by
      rintro ⟨e1, e2⟩
      rw [e1, e2, h0] at heq
      exact hvpos heq.symm
    have hdr : (r / 3 * 3 + (i : Nat)) / 3 = r / 3 := by omega
    have hdc : (c / 3 * 3 + (j : Nat)) / 3 = c / 3 := by omega
    exact valid_box_ne b2 hval hrr hcc hr hc hdr hdc hne
      (by rw [hkx]; exact hbx) (hkx.trans heq)

lemma completion_unstep (b : Board) {r c : Nat} {v : Int} (h0 : b r c = 0)
    (hv : v ≠ 0) (b2 : Board) (hcomp : Completion (setCell b r c v) b2) :
    Completion b b2 := by
  obtain ⟨h19, hkeep, hval⟩ := hcomp
  refine ⟨h19, ?_, hval⟩
  intro r2 c2 hnz
  have hne : ¬((r2 : Nat) = r ∧ (c2 : Nat) = c) := by
    rintro ⟨e1, e2⟩
    rw [e1, e2] at hnz
    exact hnz h0
  have hs : setCell b r c v (r2 : Nat) (c2 : Nat) = b (r2 : Nat) (c2 : Nat) :=
    setCell_other b r c v hne
  have hx := hkeep r2 c2 (by rw [hs]; exact hnz)
  rw [hs] at hx
  exact hx

lemma completion_step (b : Board) {r c : Nat} (hr : r < 9) (hc : c < 9)
    (b2 : Board) (hcomp : Completion b b2) :
    Completion (setCell b r c (b2 r c)) b2 := by
  obtain ⟨h19, hkeep, hval⟩ := hcomp
  refine ⟨h19, ?_, hval⟩
  intro r2 c2 hnz
  by_cases hne : (r2 : Nat) = r ∧ (c2 : Nat) = c
  · obtain ⟨e1, e2⟩ := hne
    rw [setCell]
    simp only [e1, e2, and_self, if_true]
  · rw [setCell_other b r c _ hne] at hnz ⊢
    exact hkeep r2 c2 hnz

/-- The cell-list invariant transfers to the board with its head cell
filled: the remaining cells are still empty and in range. -/
lemma cells_step (b : Board) {r c : Nat} {rest : List (Nat × Nat)} (v : Int)
    (Hcells : ∀ p ∈ (r, c) :: rest, p.1 < 9 ∧ p.2 < 9 ∧ b p.1 p.2 = 0)
    (Hnd : ((r, c) :: rest).Nodup) :
    ∀ p ∈ rest, p.1 < 9 ∧ p.2 < 9 ∧ setCell b r c v p.1 p.2 = 0 := by
  intro p hp
  obtain ⟨h1, h2, h3⟩ := Hcells p (List.mem_cons_of_mem _ hp)
  have hpne : ¬(p.1 = r ∧ p.2 = c) := by
    rintro ⟨e1, e2⟩
    have : p = (r, c) := Prod.ext e1 e2
    exact (List.nodup_cons.mp Hnd).1 (this ▸ hp)
  exact ⟨h1, h2, by rw [setCell_other b r c v hpne]; exact h3⟩

lemma cover_step (b : Board) {r c : Nat} {rest : List (Nat × Nat)} {v : Int}
    (Hcover : ∀ r2 c2 : Nat, r2 < 9 → c2 < 9 → b r2 c2 = 0 →
      (r2, c2) ∈ (r, c) :: rest)
    (hv : v ≠ 0) :
    ∀ r2 c2 : Nat, r2 < 9 → c2 < 9 → setCell b r c v r2 c2 = 0 →
      (r2, c2) ∈ rest := by
  intro r2 c2 h1 h2 h3
  have hne : ¬(r2 = r ∧ c2 = c) := by
    rintro ⟨rfl, rfl⟩
    rw [setCell_same] at h3
    exact hv h3
  rw [setCell_other b r c v hne] at h3
  rcases List.mem_cons.mp (Hcover r2 c2 h1 h2 h3) with heq | hm
  · exfalso
    apply hne
    have e1 := congrArg Prod.fst heq
    have e2 := congrArg Prod.snd heq
    exact ⟨e1, e2⟩
  · exact hm

lemma vals_step (b : Board) {r c : Nat} {v : Int}
    (Hvals : ∀ r2 c2 : Fin 9, b (r2 : Nat) (c2 : Nat) = 0 ∨
      (1 ≤ b (r2 : Nat) (c2 : Nat) ∧ b (r2 : Nat) (c2 : Nat) ≤ 9))
    (hv1 : 1 ≤ v) (hv9 : v ≤ 9) :
    ∀ r2 c2 : Fin 9, setCell b r c v (r2 : Nat) (c2 : Nat) = 0 ∨
      (1 ≤ setCell b r c v (r2 : Nat) (c2 : Nat) ∧
        setCell b r c v (r2 : Nat) (c2 : Nat) ≤ 9) := by
  intro r2 c2
  by_cases hne : (r2 : Nat) = r ∧ (c2 : Nat) = c
  · rw [setCell]
    simp only [hne, and_self, if_true]
    exact Or.inr ⟨hv1, hv9⟩
  · rw [setCell_other b r c v hne]
    exact Hvals r2 c2

/-- A positive branch count yields a completion. -/
lemma countN_pos_exists :
    ∀ (cells : List (Nat × Nat)) (b : Board),
      (∀ p ∈ cells, p.1 < 9 ∧ p.2 < 9 ∧ b p.1 p.2 = 0) →
      (∀ r2 c2 : Nat, r2 < 9 → c2 < 9 → b r2 c2 = 0 → (r2, c2) ∈ cells) →
      cells.Nodup →
      (∀ r2 c2 : Fin 9, b (r2 : Nat) (c2 : Nat) = 0 ∨
        (1 ≤ b (r2 : Nat) (c2 : Nat) ∧ b (r2 : Nat) (c2 : Nat) ≤ 9)) →
      isValid b = true →
      1 ≤ countN b cells → ∃ b2, Completion b b2 := by
  intro cells
  induction cells with
  | nil =>
    intro b Hcells Hcover Hnd Hvals Hvalid hpos
    refine ⟨b, ?_, ?_, Hvalid⟩
    · intro r2 c2
      rcases Hvals r2 c2 with h | h
      · exact absurd (Hcover (r2 : Nat) (c2 : Nat) r2.isLt c2.isLt h)
          (List.not_mem_nil _)
      · exact h
    · intro r2 c2 _
      rfl
  | cons hd rest IH =>
    obtain ⟨r, c⟩ := hd
    intro b Hcells Hcover Hnd Hvals Hvalid hpos
    obtain ⟨hr, hc, h0⟩ := Hcells (r, c) (List.mem_cons_self _ _)
    rw [countN_cons] at hpos
    obtain ⟨num, hmem, hcp, hpos2⟩ := countLoopN_pos b r c rest oneToNine hpos
    obtain ⟨h1n, h9n⟩ := oneToNine_bounds hmem
    obtain ⟨b2, hb2⟩ := IH (setCell b r c num)
      (cells_step b num Hcells Hnd)
      (cover_step b Hcover (by omega))
      (List.nodup_cons.mp Hnd).2
      (vals_step b Hvals h1n h9n)
      (isValid_setCell b num hr hc Hvalid (Or.inr hcp))
      hpos2
    exact ⟨b2, completion_unstep b h0 (by omega) b2 hb2⟩

/-- Every completion contributes a branch: the count is at least 1. -/
lemma completion_countN_pos :
    ∀ (cells : List (Nat × Nat)) (b : Board),
      (∀ p ∈ cells, p.1 < 9 ∧ p.2 < 9 ∧ b p.1 p.2 = 0) →
      cells.Nodup →
      ∀ b2, Completion b b2 → 1 ≤ countN b cells := by
  intro cells
  induction cells with
  | nil =>
    intro b _ _ b2 _
    rw [countN_nil]
  | cons hd rest IH =>
    obtain ⟨r, c⟩ := hd
    intro b Hcells Hnd b2 hcomp
    obtain ⟨hr, hc, h0⟩ := Hcells (r, c) (List.mem_cons_self _ _)
    have hcp := completion_canPlace b b2 hcomp hr hc h0
    have hdig := hcomp.1 ⟨r, hr⟩ ⟨c, hc⟩
    have hmem := mem_oneToNine hdig.1 hdig.2
    have hstep := completion_step b hr hc b2 hcomp
    have hrest := IH (setCell b r c (b2 r c))
      (cells_step b (b2 r c) Hcells Hnd)
      (List.nodup_cons.mp Hnd).2 b2 hstep
    rw [countN_cons]
    calc 1 ≤ countN (setCell b r c (b2 r c)) rest := hrest
    _ ≤ countLoopN b r c rest oneToNine :=
        countN_le_countLoopN b r c rest oneToNine (b2 r c) hmem hcp

/-- Two completions that differ somewhere on the grid contribute two
distinct branches: the count is at least 2. -/
lemma countN_ge_two :
    ∀ (cells : List (Nat × Nat)) (b : Board),
      (∀ p ∈ cells, p.1 < 9 ∧ p.2 < 9 ∧ b p.1 p.2 = 0) →
      (∀ r2 c2 : Nat, r2 < 9 → c2 < 9 → b r2 c2 = 0 → (r2, c2) ∈ cells) →
      cells.Nodup →
      ∀ b2 b3, Completion b b2 → Completion b b3 → ¬ EqOn b3 b2 →
      2 ≤ countN b cells := by
  intro cells
  induction cells with
  | nil =>
    intro b Hcells Hcover Hnd b2 b3 hb2 hb3 hne
    exfalso
    apply hne
    intro r2 c2
    have hnz : b (r2 : Nat) (c2 : Nat) ≠ 0 := by
      intro h
      exact absurd (Hcover (r2 : Nat) (c2 : Nat) r2.isLt c2.isLt h)
        (List.not_mem_nil _)
    rw [hb3.2.1 r2 c2 hnz, hb2.2.1 r2 c2 hnz]
  | cons hd rest IH =>
    obtain ⟨r, c⟩ := hd
    intro b Hcells Hcover Hnd b2 b3 hb2 hb3 hne
    obtain ⟨hr, hc, h0⟩ := Hcells (r, c) (List.mem_cons_self _ _)
    have hcp2 := completion_canPlace b b2 hb2 hr hc h0
    have hcp3 := completion_canPlace b b3 hb3 hr hc h0
    have hdig2 : 1 ≤ b2 r c ∧ b2 r c ≤ 9 := hb2.1 ⟨r, hr⟩ ⟨c, hc⟩
    have hdig3 : 1 ≤ b3 r c ∧ b3 r c ≤ 9 := hb3.1 ⟨r, hr⟩ ⟨c, hc⟩
    have hmem2 := mem_oneToNine hdig2.1 hdig2.2
    have hmem3 := mem_oneToNine hdig3.1 hdig3.2
    rw [countN_cons]
    by_cases hv : b2 r c = b3 r c
    · have hstep2 := completion_step b hr hc b2 hb2
      have hstep3 := completion_step b hr hc b3 hb3
      rw [← hv] at hstep3
      have h2 := IH (setCell b r c (b2 r c))
        (cells_step b (b2 r c) Hcells Hnd)
        (cover_step b Hcover (by omega))
        (List.nodup_cons.mp Hnd).2 b2 b3 hstep2 hstep3 hne
      have := countN_le_countLoopN b r c rest oneToNine (b2 r c) hmem2 hcp2
      omega
    · have p2 : 1 ≤ countN (setCell b r c (b2 r c)) rest :=
        completion_countN_pos rest (setCell b r c (b2 r c))
          (cells_step b (b2 r c) Hcells Hnd)
          (List.nodup_cons.mp Hnd).2 b2 (completion_step b hr hc b2 hb2)
      have p3 : 1 ≤ countN (setCell b r c (b3 r c)) rest :=
        completion_countN_pos rest (setCell b r c (b3 r c))
          (cells_step b (b3 r c) Hcells Hnd)
          (List.nodup_cons.mp Hnd).2 b3 (completion_step b hr hc b3 hb3)
      have := countLoopN_pair b r c rest oneToNine (b2 r c) (b3 r c)
        oneToNine_nodup hmem2 hmem3 hv hcp2 hcp3
      omega

lemma findEmptyCells_nodup (b : Board) : (findEmptyCells b).Nodup := by
  unfold findEmptyCells
  rw [List.nodup_flatMap]
  constructor
  · intro row hrow
    refine List.Nodup.filterMap ?_ (List.nodup_range 9)
    intro a a2 p hp hp2
    simp only [Option.mem_def] at hp hp2
    split_ifs at hp hp2 with h1 h2
    simp only [Option.some.injEq] at hp hp2
    have e : (row, a) = (row, a2) := hp.trans hp2.symm
    simp only [Prod.mk.injEq] at e
    exact e.2
  · refine List.Pairwise.imp ?_ (List.pairwise_lt_range 9)
    intro a a2 hlt p hpa hpa2
    simp only [List.mem_filterMap, List.mem_range] at hpa hpa2
    obtain ⟨x, -, hx⟩ := hpa
    obtain ⟨y, -, hy⟩ := hpa2
    split_ifs at hx hy with h1 h2
    simp only [Option.some.injEq] at hx hy
    have e : (a, x) = (a2, y) := hx.trans hy.symm
    simp only [Prod.mk.injEq] at e
    omega

/-- If the reference count over the empty cells is exactly 1, the board
has exactly one completion (up to the 81 grid cells). -/
lemma countN_one_unique (b : Board)
    (Hvals : ∀ r2 c2 : Fin 9, b (r2 : Nat) (c2 : Nat) = 0 ∨
      (1 ≤ b (r2 : Nat) (c2 : Nat) ∧ b (r2 : Nat) (c2 : Nat) ≤ 9))
    (Hvalid : isValid b = true)
    (h1 : countN b (findEmptyCells b) = 1) : UniqueCompletion b := by
  have Hcells : ∀ p ∈ findEmptyCells b, p.1 < 9 ∧ p.2 < 9 ∧ b p.1 p.2 = 0 := by
    rintro ⟨r2, c2⟩ hm
    exact (mem_findEmptyCells b r2 c2).mp hm
  have Hcover : ∀ r2 c2 : Nat, r2 < 9 → c2 < 9 → b r2 c2 = 0 →
      (r2, c2) ∈ findEmptyCells b := by
    intro r2 c2 hr2 hc2 h0
    exact (mem_findEmptyCells b r2 c2).mpr ⟨hr2, hc2, h0⟩
  have Hnd := findEmptyCells_nodup b
  obtain ⟨b2, hb2⟩ := countN_pos_exists (findEmptyCells b) b Hcells Hcover Hnd
    Hvals Hvalid (by omega)
  refine ⟨b2, hb2, ?_⟩
  intro b3 hb3
  by_contra hne
  have := countN_ge_two (findEmptyCells b) b Hcells Hcover Hnd b2 b3
    hb2 hb3 hne
  omega

/-! ### The backtracking filler -/

/-- A search from a board whose cells at linear index ≥ `idx` are empty
and which admits a completion always succeeds, whatever the candidate
orders drawn from `perms`. -/
lemma fillFrom_total (perms : Nat → List Int)
    (Hperms : ∀ n, (perms n).Perm oneToNine) :
    ∀ (fuel idx k : Nat) (b : Board), 81 - idx ≤ fuel →
      (∀ r2 c2 : Nat, r2 < 9 → c2 < 9 → idx ≤ 9 * r2 + c2 → b r2 c2 = 0) →
      (∃ b2, Completion b b2) →
      ∃ b2 k2, fillFrom perms idx k b = (some b2, k2) := by
  intro fuel
  induction fuel with
  | zero =>
    intro idx k b hf hz hcomp
    rw [fillFrom_eq, if_pos (by omega)]
    exact ⟨b, k, rfl⟩
  | succ n IHf =>
    intro idx k b hf hz hcomp
    by_cases hidx : 81 ≤ idx
    · rw [fillFrom_eq, if_pos hidx]
      exact ⟨b, k, rfl⟩
    · rw [fillFrom_eq, if_neg hidx]
      obtain ⟨b2, hb2⟩ := hcomp
      have hr : idx / 9 < 9 := by omega
      have hc : idx % 9 < 9 := by omega
      have h0 : b (idx / 9) (idx % 9) = 0 := hz _ _ hr hc (by omega)
      have hcp := completion_canPlace b b2 hb2 hr hc h0
      have hdig : 1 ≤ b2 (idx / 9) (idx % 9) ∧ b2 (idx / 9) (idx % 9) ≤ 9 :=
        hb2.1 ⟨_, hr⟩ ⟨_, hc⟩
      have hvmem : b2 (idx / 9) (idx % 9) ∈ perms k :=
        (Hperms k).mem_iff.mpr (mem_oneToNine hdig.1 hdig.2)
      suffices L : ∀ (nums : List Int) (k2 : Nat),
          b2 (idx / 9) (idx % 9) ∈ nums →
          ∃ b3 k3, fillTry perms idx nums k2 b = (some b3, k3) by
        exact L (perms k) (k + 1) hvmem
      intro nums
      induction nums with
      | nil =>
        intro k2 hmem
        cases hmem
      | cons num ns IHn =>
        intro k2 hmem
        rw [fillTry_cons]
        by_cases hcpn : canPlace b (idx / 9) (idx % 9) num = true
        · rw [if_pos hcpn]
          rcases hres : fillFrom perms (idx + 1) k2
              (setCell b (idx / 9) (idx % 9) num) with ⟨ores, k3⟩
          cases ores with
          | some b3 =>
            exact ⟨b3, k3, rfl⟩
          | none =>
            have hnum_ne : num ≠ b2 (idx / 9) (idx % 9) := by
              intro hEq
              have hz2 : ∀ r2 c2 : Nat, r2 < 9 → c2 < 9 →
                  idx + 1 ≤ 9 * r2 + c2 →
                  setCell b (idx / 9) (idx % 9) num r2 c2 = 0 := by
                intro r2 c2 h1 h2 h3
                have hne : ¬(r2 = idx / 9 ∧ c2 = idx % 9) := by
                  rintro ⟨rfl, rfl⟩
                  omega
                rw [setCell_other _ _ _ _ hne]
                exact hz r2 c2 h1 h2 (by omega)
              have hcomp2 : ∃ b3, Completion
                  (setCell b (idx / 9) (idx % 9) num) b3 :=
                ⟨b2, by rw [hEq]; exact completion_step b hr hc b2 hb2⟩
              obtain ⟨b3, k4, hsucc⟩ :=
                IHf (idx + 1) k2 _ (by omega) hz2 hcomp2
              rw [hsucc] at hres
              simp at hres
            have hmem2 : b2 (idx / 9) (idx % 9) ∈ ns := by
              rcases List.mem_cons.mp hmem with hEq | h
              · exact absurd hEq.symm hnum_ne
              · exact h
            obtain ⟨b3, k4, hfin⟩ := IHn k3 hmem2
            exact ⟨b3, k4, hfin⟩
        · rw [if_neg hcpn]
          have hnum_ne : num ≠ b2 (idx / 9) (idx % 9) := by
            intro hEq
            rw [hEq] at hcpn
            exact hcpn hcp
          have hmem2 : b2 (idx / 9) (idx % 9) ∈ ns := by
            rcases List.mem_cons.mp hmem with hEq | h
            · exact absurd hEq.symm hnum_ne
            · exact h
          exact IHn k2 hmem2

/-- Any successful search result is a fully-filled valid board. -/
lemma fillFrom_props (perms : Nat → List Int)
    (Hperms : ∀ n, (perms n).Perm oneToNine) :
    ∀ (fuel idx k : Nat) (b : Board), 81 - idx ≤ fuel →
      (∀ r2 c2 : Nat, r2 < 9 → c2 < 9 → 9 * r2 + c2 < idx →
        1 ≤ b r2 c2 ∧ b r2 c2 ≤ 9) →
      isValid b = true →
      ∀ b2 k2, fillFrom perms idx k b = (some b2, k2) →
        (∀ r2 c2 : Fin 9, 1 ≤ b2 (r2 : Nat) (c2 : Nat) ∧
          b2 (r2 : Nat) (c2 : Nat) ≤ 9) ∧ isValid b2 = true := by
  intro fuel
  induction fuel with
  | zero =>
    intro idx k b hf hfill hvalid b2 k2 h
    rw [fillFrom_eq, if_pos (by omega)] at h
    simp only [Prod.mk.injEq, Option.some.injEq] at h
    rw [← h.1]
    exact ⟨fun r2 c2 => hfill _ _ r2.isLt c2.isLt (by omega), hvalid⟩
  | succ n IHf =>
    intro idx k b hf hfill hvalid b2 k2 h
    by_cases hidx : 81 ≤ idx
    · rw [fillFrom_eq, if_pos hidx] at h
      simp only [Prod.mk.injEq, Option.some.injEq] at h
      rw [← h.1]
      exact ⟨fun r2 c2 => hfill _ _ r2.isLt c2.isLt (by omega), hvalid⟩
    · rw [fillFrom_eq, if_neg hidx] at h
      have hr : idx / 9 < 9 := by omega
      have hc : idx % 9 < 9 := by omega
      have hsub0 : ∀ x ∈ perms k, x ∈ oneToNine :=
        fun x hx => (Hperms k).mem_iff.mp hx
      revert h
      suffices L : ∀ (nums : List Int) (kin kout : Nat),
          (∀ x ∈ nums, x ∈ oneToNine) →
          fillTry perms idx nums kin b = (some b2, kout) →
          (∀ r2 c2 : Fin 9, 1 ≤ b2 (r2 : Nat) (c2 : Nat) ∧
            b2 (r2 : Nat) (c2 : Nat) ≤ 9) ∧ isValid b2 = true by
        exact L (perms k) (k + 1) k2 hsub0
      intro nums
      induction nums with
      | nil =>
        intro kin kout _ h
        rw [fillTry_nil] at h
        simp at h
      | cons num ns IHn =>
        intro kin kout hsub h
        rw [fillTry_cons] at h
        by_cases hcpn : canPlace b (idx / 9) (idx % 9) num = true
        · rw [if_pos hcpn] at h
          rcases hres : fillFrom perms (idx + 1) kin
              (setCell b (idx / 9) (idx % 9) num) with ⟨ores, k4⟩
          rw [hres] at h
          cases ores with
          | some b3 =>
            simp only [Prod.mk.injEq, Option.some.injEq] at h
            obtain ⟨hnum1, hnum9⟩ := oneToNine_bounds
              (hsub num (List.mem_cons_self _ _))
            have hfill2 : ∀ r2 c2 : Nat, r2 < 9 → c2 < 9 →
                9 * r2 + c2 < idx + 1 →
                1 ≤ setCell b (idx / 9) (idx % 9) num r2 c2 ∧
                  setCell b (idx / 9) (idx % 9) num r2 c2 ≤ 9 := by
              intro r2 c2 h1 h2 h3
              by_cases hne : r2 = idx / 9 ∧ c2 = idx % 9
              · obtain ⟨rfl, rfl⟩ := hne
                rw [setCell_same]
                exact ⟨hnum1, hnum9⟩
              · rw [setCell_other _ _ _ _ hne]
                exact hfill r2 c2 h1 h2 (by omega)
            have hvalid2 := isValid_setCell b num hr hc hvalid (Or.inr hcpn)
            have := IHf (idx + 1) kin _ (by omega) hfill2 hvalid2 b3 k4 hres
            rw [← h.1]
            exact this
          | none =>
            exact IHn k4 kout (fun x hx => hsub x (List.mem_cons_of_mem _ hx)) h
        · rw [if_neg hcpn] at h
          exact IHn kin kout (fun x hx => hsub x (List.mem_cons_of_mem _ hx)) h

lemma generateCompletedBoard_props (perms : Nat → List Int)
    (Hperms : ∀ n, (perms n).Perm oneToNine) :
    (∀ r2 c2 : Fin 9, 1 ≤ generateCompletedBoard perms (r2 : Nat) (c2 : Nat) ∧
      generateCompletedBoard perms (r2 : Nat) (c2 : Nat) ≤ 9) ∧
    isValid (generateCompletedBoard perms) = true := by
  have hcompE : ∃ b2, Completion emptyBoard b2 :=
    ⟨fun r2 c2 => (((3 * r2 + r2 / 3 + c2) % 9 : Nat) : Int) + 1, by decide⟩
  obtain ⟨b2, k2, hsucc⟩ := fillFrom_total perms Hperms 81 0 0 emptyBoard
    (by omega) (fun _ _ _ _ _ => rfl) hcompE
  have hprops := fillFrom_props perms Hperms 81 0 0 emptyBoard (by omega)
    (fun r2 c2 _ _ h => absurd h (by omega)) (by decide) b2 k2 hsucc
  unfold generateCompletedBoard
  rw [hsucc]
  exact hprops

/-! ### The carver -/

lemma removeLoop_nil (target : Int) (removed : Nat) (b : Board) :
    removeLoop target [] removed b = b := rfl

lemma removeLoop_cons (target : Int) (row col : Nat)
    (rest : List (Nat × Nat)) (removed : Nat) (b : Board) :
    removeLoop target ((row, col) :: rest) removed b =
      if target ≤ (removed : Int) then b
      else
        if hasUniqueSolution (setCell b row col 0) then
          removeLoop target rest (removed + 1) (setCell b row col 0)
        else
          removeLoop target rest removed
            (setCell (setCell b row col 0) row col (b row col)) := rfl

lemma mem_allCells (r c : Nat) : (r, c) ∈ allCells ↔ r < 9 ∧ c < 9 := by
  simp [allCells]

/-- The carving loop preserves: digit-or-empty cells, validity, and a
branch count of exactly 1 over the empty cells. -/
lemma removeLoop_inv (target : Int) :
    ∀ (cells : List (Nat × Nat)) (removed : Nat) (b : Board),
      (∀ p ∈ cells, p.1 < 9 ∧ p.2 < 9) →
      (∀ r2 c2 : Fin 9, b (r2 : Nat) (c2 : Nat) = 0 ∨
        (1 ≤ b (r2 : Nat) (c2 : Nat) ∧ b (r2 : Nat) (c2 : Nat) ≤ 9)) →
      isValid b = true →
      countN b (findEmptyCells b) = 1 →
      (∀ r2 c2 : Fin 9, removeLoop target cells removed b (r2 : Nat) (c2 : Nat) = 0 ∨
        (1 ≤ removeLoop target cells removed b (r2 : Nat) (c2 : Nat) ∧
          removeLoop target cells removed b (r2 : Nat) (c2 : Nat) ≤ 9)) ∧
      isValid (removeLoop target cells removed b) = true ∧
      countN (removeLoop target cells removed b)
        (findEmptyCells (removeLoop target cells removed b)) = 1 := by
  intro cells
  induction cells with
  | nil =>
    intro removed b _ hvals hvalid hcount
    rw [removeLoop_nil]
    exact ⟨hvals, hvalid, hcount⟩
  | cons hd rest IH =>
    obtain ⟨row, col⟩ := hd
    intro removed b hcr hvals hvalid hcount
    rw [removeLoop_cons]
    by_cases hstop : target ≤ (removed : Int)
    · rw [if_pos hstop]
      exact ⟨hvals, hvalid, hcount⟩
    · rw [if_neg hstop]
      obtain ⟨hrow, hcol⟩ := hcr (row, col) (List.mem_cons_self _ _)
      by_cases huniq : hasUniqueSolution (setCell b row col 0) = true
      · rw [if_pos huniq]
        apply IH (removed + 1) (setCell b row col 0)
          (fun p hp => hcr p (List.mem_cons_of_mem _ hp))
        · intro r2 c2
          by_cases hne : (r2 : Nat) = row ∧ (c2 : Nat) = col
          · left
            rw [setCell]
            simp [hne]
          · rw [setCell_other _ _ _ _ hne]
            exact hvals r2 c2
        · exact isValid_setCell b 0 hrow hcol hvalid (Or.inl rfl)
        · have hmem : (row, col) ∈ findEmptyCells (setCell b row col 0) :=
            (mem_findEmptyCells _ row col).mpr
              ⟨hrow, hcol, setCell_same b row col 0⟩
          have hne : ¬(findEmptyCells (setCell b row col 0)).isEmpty = true := by
            rw [List.isEmpty_iff]
            intro hEq
            rw [hEq] at hmem
            exact absurd hmem (List.not_mem_nil _)
          unfold hasUniqueSolution at huniq
          rw [if_neg hne] at huniq
          have hsc := of_decide_eq_true huniq
          have := solveCount_min (findEmptyCells (setCell b row col 0))
            (setCell b row col 0) 0 (by omega)
          omega
      · rw [if_neg huniq]
        rw [setCell_setCell_self b row col 0]
        exact IH removed b (fun p hp => hcr p (List.mem_cons_of_mem _ hp))
          hvals hvalid hcount

/-- The generated puzzle is a digits-or-empty board, valid, with branch
count exactly 1 over its empty cells. -/
lemma generatePuzzle_base (d : Int) (perms : Nat → List Int)
    (cellOrder : List (Nat × Nat))
    (Hperms : ∀ n, (perms n).Perm oneToNine)
    (hcr : ∀ p ∈ cellOrder, p.1 < 9 ∧ p.2 < 9) :
    (∀ r2 c2 : Fin 9, generatePuzzle d perms cellOrder (r2 : Nat) (c2 : Nat) = 0 ∨
      (1 ≤ generatePuzzle d perms cellOrder (r2 : Nat) (c2 : Nat) ∧
        generatePuzzle d perms cellOrder (r2 : Nat) (c2 : Nat) ≤ 9)) ∧
    isValid (generatePuzzle d perms cellOrder) = true ∧
    countN (generatePuzzle d perms cellOrder)
      (findEmptyCells (generatePuzzle d perms cellOrder)) = 1 := by
  obtain ⟨hdig0, hvalid0⟩ := generateCompletedBoard_props perms Hperms
  have hEqCopy : ∀ r2 c2 : Nat, r2 < 9 → c2 < 9 →
      copyBoard (generateCompletedBoard perms) r2 c2
        = generateCompletedBoard perms r2 c2 := by
    intro r2 c2 h1 h2
    rw [copyBoard]
    simp only [h1, h2, and_self, if_true]
  have hvalidC : isValid (copyBoard (generateCompletedBoard perms)) = true := by
    rw [isValid_congr _ _ hEqCopy]
    exact hvalid0
  have hvalsC : ∀ r2 c2 : Fin 9,
      copyBoard (generateCompletedBoard perms) (r2 : Nat) (c2 : Nat) = 0 ∨
      (1 ≤ copyBoard (generateCompletedBoard perms) (r2 : Nat) (c2 : Nat) ∧
        copyBoard (generateCompletedBoard perms) (r2 : Nat) (c2 : Nat) ≤ 9) := by
    intro r2 c2
    rw [hEqCopy _ _ r2.isLt c2.isLt]
    exact Or.inr (hdig0 r2 c2)
  have hfeC : findEmptyCells (copyBoard (generateCompletedBoard perms)) = [] := by
    rw [List.eq_nil_iff_forall_not_mem]
    intro p
    obtain ⟨r2, c2⟩ := p
    rw [mem_findEmptyCells]
    rintro ⟨h1, h2, h3⟩
    rw [hEqCopy r2 c2 h1 h2] at h3
    have hlow : 1 ≤ generateCompletedBoard perms r2 c2 :=
      (hdig0 ⟨r2, h1⟩ ⟨c2, h2⟩).1
    omega
  have hcountC : countN (copyBoard (generateCompletedBoard perms))
      (findEmptyCells (copyBoard (generateCompletedBoard perms))) = 1 := by
    rw [hfeC, countN_nil]
  obtain ⟨hvalsF, hvalidF, hcountF⟩ := removeLoop_inv (calculateCellsToRemove d)
    cellOrder 0 (copyBoard (generateCompletedBoard perms)) hcr hvalsC hvalidC
    hcountC
  have hgen : generatePuzzle d perms cellOrder
      = removeLoop (calculateCellsToRemove d) cellOrder 0
          (copyBoard (generateCompletedBoard perms)) := rfl
  rw [hgen]
  exact ⟨hvalsF, hvalidF, hcountF⟩

/-- C1: for every difficulty d in [1,10] and every sequence of random
choices (candidate orders for the filler, cell order for the carver),
`GeneratePuzzle(d)` returns a board that `IsValid` accepts and that has
exactly one completion satisfying the Sudoku constraints — equivalently,
the counting-mode solver on it reports exactly one solution. -/
theorem generatePuzzle_spec (d : Int) (perms : Nat → List Int)
    (cellOrder : List (Nat × Nat))
    (Hperms : ∀ n, (perms n).Perm oneToNine)
    (Hcells : cellOrder.Perm allCells)
    (hd1 : 1 ≤ d) (hd2 : d ≤ 10) :
    isValid (generatePuzzle d perms cellOrder) = true ∧
    UniqueCompletion (generatePuzzle d perms cellOrder) ∧
    solveCount (generatePuzzle d perms cellOrder)
      (findEmptyCells (generatePuzzle d perms cellOrder)) 0 = 1 := by
  have hcr : ∀ p ∈ cellOrder, p.1 < 9 ∧ p.2 < 9 := by
    intro p hp
    obtain ⟨r2, c2⟩ := p
    exact (mem_allCells r2 c2).mp (Hcells.mem_iff.mp hp)
  obtain ⟨hvalsF, hvalidF, hcountF⟩ :=
    generatePuzzle_base d perms cellOrder Hperms hcr
  refine ⟨hvalidF, countN_one_unique _ hvalsF hvalidF hcountF, ?_⟩
  rw [solveCount_min _ _ 0 (by omega), hcountF]
  rfl

/-- Witness for C1 at concrete random choices: the identity candidate
order at every draw and the unshuffled row-major cell order, at
difficulty 5. -/
theorem generatePuzzle_spec_witness :
    (∀ n : Nat, ((fun _ : Nat => oneToNine) n).Perm oneToNine) ∧
    allCells.Perm allCells ∧
    ((1 : Int) ≤ 5 ∧ (5 : Int) ≤ 10) ∧
    (isValid (generatePuzzle 5 (fun _ => oneToNine) allCells) = true ∧
      UniqueCompletion (generatePuzzle 5 (fun _ => oneToNine) allCells) ∧
      solveCount (generatePuzzle 5 (fun _ => oneToNine) allCells)
        (findEmptyCells (generatePuzzle 5 (fun _ => oneToNine) allCells))
        0 = 1) :=
  ⟨fun _ => List.Perm.refl _, List.Perm.refl _, ⟨by norm_num, by norm_num⟩,
    generatePuzzle_spec 5 (fun _ => oneToNine) allCells
      (fun _ => List.Perm.refl _) (List.Perm.refl _) (by norm_num)
      (by norm_num)⟩

/-! ### The single-solution solver and lobby creation -/

lemma copyBoard_eq_on (b : Board) {r2 c2 : Nat} (h1 : r2 < 9) (h2 : c2 < 9) :
    copyBoard b r2 c2 = b r2 c2 := by
  rw [copyBoard]
  simp only [h1, h2, and_self, if_true]

/-- A successful single-solution search yields a fully-filled valid board
that keeps every nonzero cell of its input. -/
lemma solveSingle_props :
    ∀ (cells : List (Nat × Nat)) (b : Board),
      (∀ p ∈ cells, p.1 < 9 ∧ p.2 < 9 ∧ b p.1 p.2 = 0) →
      (∀ r2 c2 : Nat, r2 < 9 → c2 < 9 → b r2 c2 = 0 → (r2, c2) ∈ cells) →
      cells.Nodup →
      (∀ r2 c2 : Fin 9, b (r2 : Nat) (c2 : Nat) = 0 ∨
        (1 ≤ b (r2 : Nat) (c2 : Nat) ∧ b (r2 : Nat) (c2 : Nat) ≤ 9)) →
      isValid b = true →
      ∀ b2, solveSingle b cells = some b2 →
        (∀ r2 c2 : Fin 9, 1 ≤ b2 (r2 : Nat) (c2 : Nat) ∧
          b2 (r2 : Nat) (c2 : Nat) ≤ 9) ∧
        isValid b2 = true ∧
        (∀ r2 c2 : Fin 9, b (r2 : Nat) (c2 : Nat) ≠ 0 →
          b2 (r2 : Nat) (c2 : Nat) = b (r2 : Nat) (c2 : Nat)) := by
  intro cells
  induction cells with
  | nil =>
    intro b Hcells Hcover Hnd Hvals Hvalid b2 h
    rw [solveSingle_nil] at h
    simp only [Option.some.injEq] at h
    subst h
    refine ⟨?_, Hvalid, fun _ _ _ => rfl⟩
    intro r2 c2
    rcases Hvals r2 c2 with h0 | h0
    · exact absurd (Hcover (r2 : Nat) (c2 : Nat) r2.isLt c2.isLt h0)
        (List.not_mem_nil _)
    · exact h0
  | cons hd rest IH =>
    obtain ⟨r, c⟩ := hd
    intro b Hcells Hcover Hnd Hvals Hvalid b2 h
    rw [solveSingle_cons] at h
    obtain ⟨hr, hc, h0⟩ := Hcells (r, c) (List.mem_cons_self _ _)
    revert h
    suffices L : ∀ nums : List Int, (∀ x ∈ nums, x ∈ oneToNine) →
        solveSingleLoop b r c rest nums = some b2 →
        (∀ r2 c2 : Fin 9, 1 ≤ b2 (r2 : Nat) (c2 : Nat) ∧
          b2 (r2 : Nat) (c2 : Nat) ≤ 9) ∧
        isValid b2 = true ∧
        (∀ r2 c2 : Fin 9, b (r2 : Nat) (c2 : Nat) ≠ 0 →
          b2 (r2 : Nat) (c2 : Nat) = b (r2 : Nat) (c2 : Nat)) by
      exact L oneToNine (fun x hx => hx)
    intro nums
    induction nums with
    | nil =>
      intro _ hL
      rw [solveSingleLoop_nil] at hL
      simp at hL
    | cons num ns IHn =>
      intro hsub hL
      rw [solveSingleLoop_cons] at hL
      by_cases hcpn : canPlace b r c num = true
      · rw [if_pos hcpn] at hL
        cases hres : solveSingle (setCell b r c num) rest with
        | none =>
          rw [hres] at hL
          exact IHn (fun x hx => hsub x (List.mem_cons_of_mem _ hx)) hL
        | some b3 =>
          rw [hres] at hL
          simp only [Option.some.injEq] at hL
          subst hL
          obtain ⟨hnum1, hnum9⟩ := oneToNine_bounds
            (hsub num (List.mem_cons_self _ _))
          obtain ⟨hdigs, hvalids, hkeeps⟩ := IH (setCell b r c num)
            (cells_step b num Hcells Hnd)
            (cover_step b Hcover (by omega))
            (List.nodup_cons.mp Hnd).2
            (vals_step b Hvals hnum1 hnum9)
            (isValid_setCell b num hr hc Hvalid (Or.inr hcpn))
            b3 hres
          refine ⟨hdigs, hvalids, ?_⟩
          intro r2 c2 hnz
          have hne : ¬((r2 : Nat) = r ∧ (c2 : Nat) = c) := by
            rintro ⟨e1, e2⟩
            rw [e1, e2] at hnz
            exact hnz h0
          have hs := setCell_other b r c num hne
          rw [← hs]
          exact hkeeps r2 c2 (by rw [hs]; exact hnz)
      · rw [if_neg hcpn] at hL
        exact IHn (fun x hx => hsub x (List.mem_cons_of_mem _ hx)) hL

/-- C5: whenever `NewLobby` returns a lobby, the initial puzzle equals the
puzzle cell-for-cell, the solution is complete (all 81 cells nonzero and
valid), and every given (nonzero cell of the initial puzzle) is kept by
the solution; `NewLobby` fails exactly when the single-solution solver
finds no assignment for the generated puzzle. -/
theorem newLobby_spec (id : String) (perms : Nat → List Int)
    (cellOrder : List (Nat × Nat))
    (Hperms : ∀ n, (perms n).Perm oneToNine)
    (Hcells : cellOrder.Perm allCells) :
    (∀ L, newLobby id perms cellOrder = some L →
      EqOn L.initialPuzzle L.puzzle ∧
      isComplete L.solution = true ∧
      (∀ r2 c2 : Fin 9, L.initialPuzzle (r2 : Nat) (c2 : Nat) ≠ 0 →
        L.solution (r2 : Nat) (c2 : Nat)
          = L.initialPuzzle (r2 : Nat) (c2 : Nat))) ∧
    (solvePuzzle (copyBoard (generatePuzzle 5 perms cellOrder)) = none →
      newLobby id perms cellOrder = none) := by
  have hcr : ∀ p ∈ cellOrder, p.1 < 9 ∧ p.2 < 9 := by
    intro p hp
    obtain ⟨r2, c2⟩ := p
    exact (mem_allCells r2 c2).mp (Hcells.mem_iff.mp hp)
  obtain ⟨hvalsP, hvalidP, hcountP⟩ :=
    generatePuzzle_base 5 perms cellOrder Hperms hcr
  have hvalsC : ∀ r2 c2 : Fin 9,
      copyBoard (generatePuzzle 5 perms cellOrder) (r2 : Nat) (c2 : Nat) = 0 ∨
      (1 ≤ copyBoard (generatePuzzle 5 perms cellOrder) (r2 : Nat) (c2 : Nat) ∧
        copyBoard (generatePuzzle 5 perms cellOrder) (r2 : Nat) (c2 : Nat)
          ≤ 9) := by
    intro r2 c2
    rw [copyBoard_eq_on _ r2.isLt c2.isLt]
    exact hvalsP r2 c2
  have hvalidC : isValid (copyBoard (generatePuzzle 5 perms cellOrder))
      = true := by
    rw [isValid_congr _ _
      (fun r2 c2 h1 h2 => copyBoard_eq_on (generatePuzzle 5 perms cellOrder)
        h1 h2)]
    exact hvalidP
  constructor
  · intro L hL
    unfold newLobby at hL
    dsimp only at hL
    cases hsol : solvePuzzle (copyBoard (generatePuzzle 5 perms cellOrder)) with
    | none =>
      rw [hsol] at hL
      simp at hL
    | some sol =>
      rw [hsol] at hL
      simp only [Option.some.injEq] at hL
      subst hL
      have hsolprops : (∀ r2 c2 : Fin 9,
          1 ≤ sol (r2 : Nat) (c2 : Nat) ∧ sol (r2 : Nat) (c2 : Nat) ≤ 9) ∧
          isValid sol = true ∧
          (∀ r2 c2 : Fin 9,
            copyBoard (generatePuzzle 5 perms cellOrder) (r2 : Nat) (c2 : Nat)
              ≠ 0 →
            sol (r2 : Nat) (c2 : Nat)
              = copyBoard (generatePuzzle 5 perms cellOrder) (r2 : Nat)
                  (c2 : Nat)) := by
        unfold solvePuzzle at hsol
        dsimp only at hsol
        by_cases hempty :
            (findEmptyCells (copyBoard (generatePuzzle 5 perms cellOrder))).isEmpty
        · rw [if_pos hempty] at hsol
          simp only [Option.some.injEq] at hsol
          subst hsol
          have hnz : ∀ r2 c2 : Fin 9,
              copyBoard (generatePuzzle 5 perms cellOrder) (r2 : Nat) (c2 : Nat)
                ≠ 0 := by
            intro r2 c2 h0
            have hm := (mem_findEmptyCells _ (r2 : Nat) (c2 : Nat)).mpr
              ⟨r2.isLt, c2.isLt, h0⟩
            rw [List.isEmpty_iff] at hempty
            rw [hempty] at hm
            exact absurd hm (List.not_mem_nil _)
          refine ⟨?_, hvalidC, fun _ _ _ => rfl⟩
          intro r2 c2
          rcases hvalsC r2 c2 with h0 | h0
          · exact absurd h0 (hnz r2 c2)
          · exact h0
        · rw [if_neg hempty] at hsol
          exact solveSingle_props
            (findEmptyCells (copyBoard (generatePuzzle 5 perms cellOrder)))
            (copyBoard (generatePuzzle 5 perms cellOrder))
            (by
              rintro ⟨r2, c2⟩ hm
              exact (mem_findEmptyCells _ r2 c2).mp hm)
            (fun r2 c2 h1 h2 h3 => (mem_findEmptyCells _ r2 c2).mpr ⟨h1, h2, h3⟩)
            (findEmptyCells_nodup _)
            hvalsC hvalidC sol hsol
      obtain ⟨hdigS, hvalidS, hkeepS⟩ := hsolprops
      refine ⟨?_, ?_, ?_⟩
      · intro r2 c2
        exact copyBoard_eq_on _ r2.isLt c2.isLt
      · unfold isComplete
        rw [Bool.and_eq_true]
        refine ⟨decide_eq_true ?_, hvalidS⟩
        intro r2 c2 h0
        have h02 : sol (r2 : Nat) (c2 : Nat) = 0 := h0
        have h1 := (hdigS r2 c2).1
        rw [h02] at h1
        norm_num at h1
      · intro r2 c2 hnz
        exact hkeepS r2 c2 hnz
  · intro hnone
    unfold newLobby
    dsimp only
    rw [hnone]

/-- Witness for C5 at concrete random choices. -/
theorem newLobby_spec_witness :
    (∀ n : Nat, ((fun _ : Nat => oneToNine) n).Perm oneToNine) ∧
    allCells.Perm allCells ∧
    ((∀ L, newLobby "lobby" (fun _ => oneToNine) allCells = some L →
      EqOn L.initialPuzzle L.puzzle ∧
      isComplete L.solution = true ∧
      (∀ r2 c2 : Fin 9, L.initialPuzzle (r2 : Nat) (c2 : Nat) ≠ 0 →
        L.solution (r2 : Nat) (c2 : Nat)
          = L.initialPuzzle (r2 : Nat) (c2 : Nat))) ∧
    (solvePuzzle (copyBoard (generatePuzzle 5 (fun _ => oneToNine) allCells))
        = none →
      newLobby "lobby" (fun _ => oneToNine) allCells = none)) :=
  ⟨fun _ => List.Perm.refl _, List.Perm.refl _,
    newLobby_spec "lobby" (fun _ => oneToNine) allCells
      (fun _ => List.Perm.refl _) (List.Perm.refl _)⟩

end Sudojo
